import Mathlib

set_option maxRecDepth 10000

attribute [local semireducible] Rat.add Rat.mul Rat.sub Rat.inv

/-
  Verification of the xvigra distance-transform core
  (src/include/xvigra/distance_transform.hpp).

  The C++ code computes with `double`; the embedding uses exact rational
  arithmetic (ℚ) as the idealised real-number semantics of the algorithm.
  Machine indices (index_t) become ℕ, 2-D arrays become shape-indexed
  functions ℕ → ℕ → ℚ, and 1-D lines become lists of rationals.
-/

namespace xvigra

/-- `sq` from math.hpp (header not in src/): the square `x*x`. -/
def sq (x : ℚ) : ℚ := x * x

/-- Stack entry of the 1-D lower-envelope pass
(struct `distance_parabola_stack_entry`, distance_transform.hpp:47-56). -/
structure distance_parabola_stack_entry where
  left : ℚ
  center : ℚ
  right : ℚ
  apex_height : ℚ
deriving DecidableEq, Repr

/-- The inner `while(true)` loop of `distance_parabola`
(distance_transform.hpp:91-114): examine the top of the stack, pop it while
the new parabola's intersection with it lies left of its interval, otherwise
clip the top's right boundary.  The stack is a list with its head as top.
Returns the final intersection abscissa and the updated stack. -/
def popLoop (sigma2 sigma22 : ℚ) (v current : ℚ) :
    List distance_parabola_stack_entry → ℚ × List distance_parabola_stack_entry
  | [] => (0, [])
  | s :: rest =>
    let diff := current - s.center
    let intersection := current + (v - s.apex_height - sigma2 * sq diff) / (sigma22 * diff)
    if intersection < s.left then
      if rest.isEmpty then (0, []) else popLoop sigma2 sigma22 v current rest
    else if intersection < s.right then
      (intersection, ⟨s.left, s.center, intersection, s.apex_height⟩ :: rest)
    else
      (intersection, s :: rest)

/-- One iteration of the forward pass of `distance_parabola`
(distance_transform.hpp:87-117): run the pop loop for position `k`, then push
the entry `{left := intersection, center := k, right := w, apex := in(k)}`. -/
def forwardStep (sigma2 sigma22 w : ℚ) (f : ℕ → ℚ) (k : ℕ)
    (st : List distance_parabola_stack_entry) : List distance_parabola_stack_entry :=
  let p := popLoop sigma2 sigma22 (f k) (k : ℚ) st
  ⟨p.1, (k : ℚ), w, f k⟩ :: p.2

/-- The whole forward pass: fold `forwardStep` over the positions `ks`. -/
def forwardLoop (sigma2 sigma22 w : ℚ) (f : ℕ → ℚ) (ks : List ℕ)
    (st : List distance_parabola_stack_entry) : List distance_parabola_stack_entry :=
  ks.foldl (fun acc k => forwardStep sigma2 sigma22 w f k acc) st

/-- Execution trace of the forward pass: for each processed position `k`, the
pair `(k, stack at the start of iteration k)`. -/
def forwardTrace (sigma2 sigma22 w : ℚ) (f : ℕ → ℚ) :
    List ℕ → List distance_parabola_stack_entry → List (ℕ × List distance_parabola_stack_entry)
  | [], _ => []
  | k :: ks, st => (k, st) :: forwardTrace sigma2 sigma22 w f ks (forwardStep sigma2 sigma22 w f k st)

/-- The output pass of `distance_parabola` (distance_transform.hpp:122-131):
scan the stack bottom-to-top (the argument list is the stack in bottom-first
order) for the first entry whose right boundary exceeds `c` and evaluate its
parabola there. -/
def readStack (sigma2 : ℚ) : List distance_parabola_stack_entry → ℚ → ℚ
  | [], _ => 0
  | e :: rest, c =>
    if e.right ≤ c then readStack sigma2 rest c
    else sigma2 * sq (c - e.center) + e.apex_height

/-- Element access `in(k)` on a 1-D line. -/
def lineFun (lin : List ℚ) : ℕ → ℚ := fun k => lin.getD k 0

/-- `sigma2` of `distance_parabola` (distance_transform.hpp:74-78): the square
of `sigma`, negated when `invert` is true. -/
def parabolaSigma2 (sigma : ℚ) (invert : Bool) : ℚ :=
  if invert then -(sq sigma) else sq sigma

/-- The initial stack of the forward pass (distance_transform.hpp:84). -/
def initStack (w : ℚ) (f : ℕ → ℚ) : List distance_parabola_stack_entry :=
  [⟨0, 0, w, f 0⟩]

/-- The stack surviving after the complete forward pass of `distance_parabola`
on the line `lin`. -/
def finalStack (lin : List ℚ) (sigma : ℚ) (invert : Bool) :
    List distance_parabola_stack_entry :=
  forwardLoop (parabolaSigma2 sigma invert) (2 * parabolaSigma2 sigma invert)
    (lin.length : ℚ) (lineFun lin) (List.range' 1 (lin.length - 1))
    (initStack (lin.length : ℚ) (lineFun lin))

/-- `distance_parabola` (distance_transform.hpp:66-132): 1-D lower envelope of
the parabolas `x ↦ sigma2·(x−k)² + in(k)`.  For an empty line it is a no-op. -/
def distance_parabola (lin : List ℚ) (sigma : ℚ) (invert : Bool) : List ℚ :=
  if lin.length = 0 then []
  else
    (List.range lin.length).map fun (k : ℕ) =>
      readStack (parabolaSigma2 sigma invert) (finalStack lin sigma invert).reverse (k : ℚ)

/-- Row `i` of a 2-D array of shape `m × n`: the 1-D line along axis 1. -/
def rowOf (n : ℕ) (f : ℕ → ℕ → ℚ) (i : ℕ) : List ℚ := (List.range n).map (f i)

/-- Column `j` of a 2-D array of shape `m × n`: the 1-D line along axis 0. -/
def colOf (m : ℕ) (g : ℕ → ℕ → ℚ) (j : ℕ) : List ℚ := (List.range m).map fun i => g i j

/-- `distance_transform_impl` (distance_transform.hpp:138-165) instantiated at
dimension `N = 2`: first apply `distance_parabola` with `sigmas[1]` to every
line along the last axis (the rows), then apply it with `sigmas[0]` in place to
every line along axis 0 (the columns).  The C++ in-place aliasing is benign
(each line is fully read before it is written), so the pure composition below
is its exact functional behaviour. -/
def distance_transform_impl (m n : ℕ) (f : ℕ → ℕ → ℚ) (sigma0 sigma1 : ℚ)
    (invert : Bool) : ℕ → ℕ → ℚ :=
  fun i j =>
    (distance_parabola
      (colOf m (fun i' j' => (distance_parabola (rowOf n f i') sigma1 invert).getD j' 0) j)
      sigma0 invert).getD i 0

/-- Compile-time facts about the destination element type `T2` used by
`distance_transform_squared_functor::impl`: `std::is_integral`,
`std::numeric_limits::lowest()` and `std::numeric_limits::max()`. -/
structure DestType where
  isIntegral : Bool
  lowest : ℤ
  highest : ℤ
deriving DecidableEq, Repr

/-- The 8-bit unsigned destination type `uint8_t`. -/
def destUInt8 : DestType := ⟨true, 0, 255⟩

/-- The 32-bit signed destination type `int32_t`. -/
def destInt32 : DestType := ⟨true, -2147483648, 2147483647⟩

/-- A real-valued (non-integral) destination type such as `double`. -/
def destDouble : DestType := ⟨false, 0, 0⟩

/-- C++ conversion `int(x)` of a floating-point value: truncation toward 0. -/
def cppTrunc (x : ℚ) : ℤ := if x < 0 then ⌈x⌉ else ⌊x⌋

/-- The `pitch_is_real` flag (distance_transform.hpp:181-187): true iff some
pitch entry is not integral, tested by `int(pixel_pitch[k]) != pixel_pitch[k]`. -/
def pitch_is_real (p0 p1 : ℚ) : Bool :=
  decide ((cppTrunc p0 : ℚ) ≠ p0) || decide ((cppTrunc p1 : ℚ) ≠ p1)

/-- The finite sentinel `inf` (distance_transform.hpp:180-189):
`1 + Σ_axis (pitch[axis]·shape[axis])²`. -/
def computeInf (m n : ℕ) (p0 p1 : ℚ) : ℚ := 1 + sq (p0 * (m : ℚ)) + sq (p1 * (n : ℚ))

/-- The seeding step of `distance_transform_squared_functor::impl`
(distance_transform.hpp:197-204 and 212-220):
`background` → `where(equal(in, 0), inf, 0.0)`,
otherwise → `where(not_equal(in, 0), inf, 0.0)`. -/
def seedArray (background : Bool) (inf : ℚ) (f : ℕ → ℕ → ℚ) : ℕ → ℕ → ℚ :=
  fun i j =>
    if background then (if f i j = 0 then inf else 0)
    else (if f i j ≠ 0 then inf else 0)

/-- C++ `round`: rounding to the nearest integer, halves away from zero. -/
def roundHalfAway (x : ℚ) : ℤ := if x < 0 then -⌊-x + 1/2⌋ else ⌊x + 1/2⌋

/-- The overflow-protection write-back of the temporary buffer into an
integral destination (distance_transform.hpp:208):
`where(tmp > highest, highest, where(tmp < lowest, lowest, round(tmp)))`. -/
def clampRoundCode (lo hi : ℤ) (x : ℚ) : ℚ :=
  if (hi : ℚ) < x then (hi : ℚ) else if x < (lo : ℚ) then (lo : ℚ) else (roundHalfAway x : ℚ)

/-- The spec's description of the same write-back: the temporary's value
clamped to `[type_min, type_max]` and rounded to nearest integer. -/
def clampRoundSpec (lo hi : ℤ) (x : ℚ) : ℚ :=
  (roundHalfAway (max (lo : ℚ) (min (hi : ℚ) x)) : ℚ)

/-- `distance_transform_squared_functor::impl` (distance_transform.hpp:174-224),
the four-argument overload, for a 2-D source of shape `m × n` and a destination
of element type `ty`: compute `inf` and `pitch_is_real`; if the destination is
integral and precision could be lost, sweep a real-valued temporary and write
it back clamped and rounded, otherwise seed the destination and sweep it in
place. -/
def distance_transform_squared (m n : ℕ) (f : ℕ → ℕ → ℚ) (ty : DestType)
    (background : Bool) (p0 p1 : ℚ) : ℕ → ℕ → ℚ :=
  if ty.isIntegral &&
      (pitch_is_real p0 p1 || decide ((ty.highest : ℚ) < computeInf m n p0 p1)) then
    fun i j =>
      clampRoundCode ty.lowest ty.highest
        (distance_transform_impl m n (seedArray background (computeInf m n p0 p1) f)
          p0 p1 false i j)
  else
    distance_transform_impl m n (seedArray background (computeInf m n p0 p1) f) p0 p1 false

/-- The pitch-omitting overload of the functor's `impl`
(distance_transform.hpp:226-232): `pixel_pitch` defaults to 1.0 on every axis. -/
def distance_transform_squared_nopitch (m n : ℕ) (f : ℕ → ℕ → ℚ) (ty : DestType)
    (background : Bool) : ℕ → ℕ → ℚ :=
  distance_transform_squared m n f ty background 1 1

/-- The functor's `impl` with the `background` argument left to its default
`false` (distance_transform.hpp:226-232). -/
def distance_transform_squared_noflag (m n : ℕ) (f : ℕ → ℕ → ℚ) (ty : DestType) :
    ℕ → ℕ → ℚ :=
  distance_transform_squared_nopitch m n f ty false

/-- C++ conversion of a floating-point value to an integer type:
truncation toward zero (idealised over ℝ). -/
noncomputable def cppTruncR (x : ℝ) : ℤ := if x < 0 then ⌈x⌉ else ⌊x⌋

/-- `distance_transform` (distance_transform.hpp:403-410): call
`distance_transform_squared`, then assign `out = sqrt(out)`.  When the
destination element type is integral, the elementwise `double` square root is
converted back by C++ truncation toward zero on assignment; otherwise the
(idealised real) square root is stored exactly. -/
noncomputable def distance_transform (m n : ℕ) (f : ℕ → ℕ → ℚ) (ty : DestType)
    (background : Bool) (p0 p1 : ℚ) : ℕ → ℕ → ℝ :=
  fun i j =>
    if ty.isIntegral then
      (cppTruncR (Real.sqrt ((distance_transform_squared m n f ty background p0 p1 i j : ℚ) : ℝ)) : ℝ)
    else Real.sqrt ((distance_transform_squared m n f ty background p0 p1 i j : ℚ) : ℝ)

/-- The pitch-omitting overload of `distance_transform`
(distance_transform.hpp:412-419). -/
noncomputable def distance_transform_nopitch (m n : ℕ) (f : ℕ → ℕ → ℚ) (ty : DestType)
    (background : Bool) : ℕ → ℕ → ℝ :=
  fun i j =>
    if ty.isIntegral then
      (cppTruncR (Real.sqrt ((distance_transform_squared_nopitch m n f ty background i j : ℚ) : ℝ)) : ℝ)
    else Real.sqrt ((distance_transform_squared_nopitch m n f ty background i j : ℚ) : ℝ)

/-- `distance_transform` with `background` left to its default `false`
(distance_transform.hpp:412-419). -/
noncomputable def distance_transform_noflag (m n : ℕ) (f : ℕ → ℕ → ℚ) (ty : DestType) :
    ℕ → ℕ → ℝ :=
  distance_transform_nopitch m n f ty false

/-- Modelled from the spec: the functor dispatch layer (functor_base.hpp, which
is not under src/) through which `distance_transform_squared` is invoked.  Per
§6/§7 of the spec, it validates the caller contract — destination shape equal
to source shape, pitch length equal to the rank, and every pitch entry
positive — and surfaces a violation as an explicit error result instead of
invoking `impl`. -/
def distance_transform_squared_checked (srcShape destShape : ℕ × ℕ)
    (f : ℕ → ℕ → ℚ) (ty : DestType) (background : Bool) (pitch : List ℚ) :
    Except String (ℕ → ℕ → ℚ) :=
  if destShape ≠ srcShape then Except.error "shape mismatch between source and destination"
  else if pitch.length ≠ 2 then Except.error "pixel_pitch length does not match rank"
  else if ¬ (∀ p ∈ pitch, 0 < p) then Except.error "pixel_pitch entries must be positive"
  else Except.ok (distance_transform_squared srcShape.1 srcShape.2 f ty background
        (pitch.getD 0 1) (pitch.getD 1 1))

/-- Modelled from the spec: the validating dispatch layer in front of
`distance_transform` (functor_base.hpp, not under src/), with the same
precondition checks as `distance_transform_squared_checked`. -/
noncomputable def distance_transform_checked (srcShape destShape : ℕ × ℕ)
    (f : ℕ → ℕ → ℚ) (ty : DestType) (background : Bool) (pitch : List ℚ) :
    Except String (ℕ → ℕ → ℝ) :=
  if destShape ≠ srcShape then Except.error "shape mismatch between source and destination"
  else if pitch.length ≠ 2 then Except.error "pixel_pitch length does not match rank"
  else if ¬ (∀ p ∈ pitch, 0 < p) then Except.error "pixel_pitch entries must be positive"
  else Except.ok (distance_transform srcShape.1 srcShape.2 f ty background
        (pitch.getD 0 1) (pitch.getD 1 1))

/-- Complement of a binary mask: zero pixels become 1, nonzero pixels become 0. -/
def invertMask (f : ℕ → ℕ → ℚ) : ℕ → ℕ → ℚ :=
  fun i j => if f i j = 0 then 1 else 0

/-- Concrete 1×2 mask `[[0, 1]]`. -/
def maskZeroOne : ℕ → ℕ → ℚ := fun i j => if i = 0 ∧ j = 1 then 1 else 0

/-- Concrete 2×2 mask `[[1, 1], [1, 0]]`: a single zero pixel at `(1,1)`. -/
def maskCornerZero : ℕ → ℕ → ℚ := fun i j => if i = 1 ∧ j = 1 then 0 else 1

/-- Concrete 2×2 mask `[[0, 1], [1, 1]]`: a single zero pixel at `(0,0)`. -/
def maskZeroCorner : ℕ → ℕ → ℚ := fun i j => if i = 0 ∧ j = 0 then 0 else 1

/-- Concrete 20×20 mask with a single nonzero (foreground) pixel at `(0,0)`. -/
def maskSeedCorner20 : ℕ → ℕ → ℚ := fun i j => if i = 0 ∧ j = 0 then 1 else 0

/-- The set of seed positions of a 2-D mask of shape `m × n`: the positions
that receive seed value 0 under the selector flag (per the code's seeding
rule: the nonzero positions when `background` is true, the zero positions when
it is false). -/
def seedSet (m n : ℕ) (background : Bool) (f : ℕ → ℕ → ℚ) : Finset (ℕ × ℕ) :=
  (Finset.range m ×ˢ Finset.range n).filter
    (fun q => if background then f q.1 q.2 ≠ 0 else f q.1 q.2 = 0)

/-- A default stack entry, used only to state head/last conditions. -/
def dummyEntry : distance_parabola_stack_entry := ⟨0, 0, 0, 0⟩

/-- The parabola anchored at sample `j`: `x ↦ sigma2·(x−j)² + f j`. -/
def parabolaAt (sigma2 : ℚ) (f : ℕ → ℚ) (j : ℕ) (x : ℚ) : ℚ :=
  sigma2 * sq (x - (j : ℚ)) + f j

/-- The abscissa computed by the pop loop for the parabola with apex value
`vu` at center `cu` against the one with apex value `vl` at center `cl`
(with `sigma22 = 2·sigma2`): for `cl ≠ cu` and `sigma2 ≠ 0` it is their
exact intersection point. -/
def interRaw (sigma2 vu cu vl cl : ℚ) : ℚ :=
  cu + (vu - vl - sigma2 * sq (cu - cl)) / ((2 * sigma2) * (cu - cl))

/-- Centers strictly increase from the bottom of the stack to the top (the
list is top-first, so each entry's center exceeds its successor's). -/
def centersIncreasing (st : List distance_parabola_stack_entry) : Prop :=
  List.Chain' (fun u l => l.center < u.center) st

/-- Invariant bundle for one stack entry after positions `0..m` have been
processed: its center is a position index `≤ m` and its apex value is the
input there. -/
def EntryBound (m : ℕ) (f : ℕ → ℚ) (e : distance_parabola_stack_entry) : Prop :=
  ∃ jn : ℕ, jn ≤ m ∧ e.center = (jn : ℚ) ∧ e.apex_height = f jn

/-- Minimality of a stack entry on its interval of dominance: on
`[left, right)` its parabola is a lower bound of every parabola anchored at a
position `≤ m`. -/
def EntryMin (sigma2 : ℚ) (f : ℕ → ℚ) (m : ℕ) (e : distance_parabola_stack_entry) : Prop :=
  ∀ x, e.left ≤ x → x < e.right →
    ∀ jn ≤ m, sigma2 * sq (x - e.center) + e.apex_height ≤ parabolaAt sigma2 f jn x

/-- Relation between an entry `u` and the entry `l` directly below it on the
stack: centers increase, lefts are monotone, `u.left` is the exact
intersection of the two parabolas, and the intervals are adjacent except when
`u` was pushed with `left ≥ w` against an unclipped `l` (then `l.right = w`). -/
def StackRel (sigma2 w : ℚ) (u l : distance_parabola_stack_entry) : Prop :=
  l.center < u.center ∧ l.left ≤ u.left ∧
  u.left = interRaw sigma2 u.apex_height u.center l.apex_height l.center ∧
  (l.right = u.left ∨ (l.right = w ∧ w ≤ u.left))

/-- The full forward-pass stack invariant after positions `0..m` have been
processed (stack listed top-first). -/
def StackInv (sigma2 w : ℚ) (f : ℕ → ℚ) (m : ℕ)
    (st : List distance_parabola_stack_entry) : Prop :=
  st ≠ [] ∧
  (st.headD dummyEntry).right = w ∧
  (st.headD dummyEntry).center = (m : ℚ) ∧
  (st.getLastD dummyEntry).left = 0 ∧
  List.Chain' (StackRel sigma2 w) st ∧
  ∀ e ∈ st, EntryBound m f e ∧ EntryMin sigma2 f m e ∧ 0 ≤ e.left ∧ e.right ≤ w

/-- Accumulator of the pop loop: the parabola of the current position `m+1`
dominates every parabola anchored at a position `≤ m` on `[t, w)`. -/
def DomFrom (sigma2 : ℚ) (f : ℕ → ℚ) (m : ℕ) (w t : ℚ) : Prop :=
  ∀ x, t ≤ x → x < w → ∀ jn ≤ m, parabolaAt sigma2 f (m + 1) x ≤ parabolaAt sigma2 f jn x

/-- The list of centers of a stack, top first. -/
def centersOf (st : List distance_parabola_stack_entry) : List ℚ :=
  st.map (fun e => e.center)

/-- Light invariant of the forward pass before processing position `k`: the
stack's centers strictly decrease from the top and each is a natural number
strictly below `k`. -/
def LInv (k : ℕ) (st : List distance_parabola_stack_entry) : Prop :=
  List.Chain' (fun a b => b < a) (centersOf st) ∧
  ∀ x ∈ centersOf st, ∃ jn : ℕ, x = (jn : ℚ) ∧ jn < k

/-- Negating the apex value of a stack entry (the correspondence between an
`invert = true` run and an `invert = false` run on the negated input). -/
def negApex (e : distance_parabola_stack_entry) : distance_parabola_stack_entry :=
  ⟨e.left, e.center, e.right, -e.apex_height⟩

/-- Structural properties of the live stack asserted by the stack-coverage
invariant: the dominance intervals `[left, right)` are pairwise disjoint, the
centers are strictly increasing from the bottom to the top of the stack, and
the union of the intervals is exactly `[0, w)`. -/
def StackProps (w : ℚ) (st : List distance_parabola_stack_entry) : Prop :=
  List.Pairwise
    (fun a b => Set.Ico a.left a.right ∩ Set.Ico b.left b.right = ∅) st ∧
  List.Chain' (fun u l => l.center < u.center) st ∧
  (⋃ e ∈ st, Set.Ico e.left e.right) = Set.Ico (0 : ℚ) w

end xvigra

namespace xvigra

/-! ### Basic algebraic lemmas about parabola intersections -/

theorem sq_nonneg_q (x : ℚ) : 0 ≤ sq x := mul_self_nonneg x

/-- Difference of two same-curvature parabolas: a linear function vanishing at
their intersection point `interRaw`. -/
theorem parabola_sub (sigma2 : ℚ) (hs : sigma2 ≠ 0) {cl cu : ℚ} (hne : cl ≠ cu)
    (vl vu x : ℚ) :
    (sigma2 * sq (x - cl) + vl) - (sigma2 * sq (x - cu) + vu)
      = (2 * sigma2) * (cu - cl) * (x - interRaw sigma2 vu cu vl cl) := by
  have h : cu - cl ≠ 0 := sub_ne_zero.mpr (Ne.symm hne)
  unfold interRaw sq
  field_simp
  ring

/-- Right of the intersection point, the parabola with the larger center is
the lower one. -/
theorem new_le_old {sigma2 cl cu vl vu x : ℚ} (hs : 0 < sigma2) (h : cl < cu)
    (hx : interRaw sigma2 vu cu vl cl ≤ x) :
    sigma2 * sq (x - cu) + vu ≤ sigma2 * sq (x - cl) + vl := by
  have heq := parabola_sub sigma2 (ne_of_gt hs) (ne_of_lt h) vl vu x
  have hA : 0 < (2 * sigma2) * (cu - cl) := by
    have : 0 < cu - cl := sub_pos.mpr h
    positivity
  nlinarith [mul_nonneg (le_of_lt hA) (sub_nonneg.mpr hx)]

/-- Left of the intersection point, the parabola with the smaller center is
the lower one. -/
theorem old_le_new {sigma2 cl cu vl vu x : ℚ} (hs : 0 < sigma2) (h : cl < cu)
    (hx : x ≤ interRaw sigma2 vu cu vl cl) :
    sigma2 * sq (x - cl) + vl ≤ sigma2 * sq (x - cu) + vu := by
  have heq := parabola_sub sigma2 (ne_of_gt hs) (ne_of_lt h) vl vu x
  have hA : 0 < (2 * sigma2) * (cu - cl) := by
    have : 0 < cu - cl := sub_pos.mpr h
    positivity
  nlinarith [mul_nonneg (le_of_lt hA) (sub_nonneg.mpr hx)]

/-- If the larger-center parabola is already below the smaller-center one at
`y`, then the intersection point lies at or before `y`. -/
theorem inter_le_of_new_le {sigma2 cl cu vl vu y : ℚ} (hs : 0 < sigma2) (h : cl < cu)
    (hle : sigma2 * sq (y - cu) + vu ≤ sigma2 * sq (y - cl) + vl) :
    interRaw sigma2 vu cu vl cl ≤ y := by
  by_contra hlt
  push_neg at hlt
  have := old_le_new hs h (le_of_lt hlt)
  have heq := parabola_sub sigma2 (ne_of_gt hs) (ne_of_lt h) vl vu y
  have hA : 0 < (2 * sigma2) * (cu - cl) := by
    have : 0 < cu - cl := sub_pos.mpr h
    positivity
  nlinarith [mul_pos hA (sub_pos.mpr hlt)]

/-- The two parabolas agree at their intersection point. -/
theorem parab_eq_at_inter {sigma2 cl cu vl vu : ℚ} (hs : sigma2 ≠ 0) (h : cl ≠ cu) :
    sigma2 * sq (interRaw sigma2 vu cu vl cl - cl) + vl
      = sigma2 * sq (interRaw sigma2 vu cu vl cl - cu) + vu := by
  have heq := parabola_sub sigma2 hs h vl vu (interRaw sigma2 vu cu vl cl)
  have : (interRaw sigma2 vu cu vl cl - interRaw sigma2 vu cu vl cl) = 0 := sub_self _
  nlinarith [heq]

/-! ### Chain lemmas about the stack invariant -/

/-- Everything strictly below the top of a `StackRel` chain ends at or before
the top's left boundary (or the top's left boundary is already at or past `w`). -/
theorem chain_below_le_left {sigma2 w : ℚ} :
    ∀ {l : List distance_parabola_stack_entry} {a : distance_parabola_stack_entry},
      List.Chain' (StackRel sigma2 w) (a :: l) →
      ∀ e ∈ l, e.right ≤ a.left ∨ w ≤ a.left := by
  intro l
  induction l with
  | nil => intro a _ e he; exact absurd he (List.not_mem_nil e)
  | cons b t ih =>
    intro a hchain e he
    have hab : StackRel sigma2 w a b ∧ List.Chain' (StackRel sigma2 w) (b :: t) :=
      List.chain'_cons.mp hchain
    rcases List.mem_cons.mp he with rfl | het
    · rcases hab.1.2.2.2 with hr | hr
      · exact Or.inl (le_of_eq hr)
      · exact Or.inr (le_trans hr.2 (le_refl _))
    · rcases ih hab.2 e het with hr | hr
      · exact Or.inl (le_trans hr hab.1.2.1)
      · exact Or.inr (le_trans hr hab.1.2.1)

/-- Unfolding `parabolaAt`. -/
theorem parabolaAt_def (sigma2 : ℚ) (f : ℕ → ℚ) (j : ℕ) (x : ℚ) :
    parabolaAt sigma2 f j x = sigma2 * sq (x - (j : ℚ)) + f j := rfl

/-- Unfolding the pop loop on a nonempty stack, with `sigma22 = 2·sigma2`:
the computed abscissa is exactly `interRaw`. -/
theorem popLoop_cons_eq (sigma2 v c : ℚ) (s : distance_parabola_stack_entry)
    (rest : List distance_parabola_stack_entry) :
    popLoop sigma2 (2 * sigma2) v c (s :: rest) =
      if interRaw sigma2 v c s.apex_height s.center < s.left then
        (if rest.isEmpty then ((0 : ℚ), ([] : List distance_parabola_stack_entry))
         else popLoop sigma2 (2 * sigma2) v c rest)
      else if interRaw sigma2 v c s.apex_height s.center < s.right then
        (interRaw sigma2 v c s.apex_height s.center,
          ⟨s.left, s.center, interRaw sigma2 v c s.apex_height s.center, s.apex_height⟩ :: rest)
      else (interRaw sigma2 v c s.apex_height s.center, s :: rest) := rfl

/-- `getLastD` of a nonempty list does not depend on the default. -/
theorem getLastD_indep {α : Type} :
    ∀ (l : List α) (a d d' : α), List.getLastD (a :: l) d = List.getLastD (a :: l) d' := by
  intro l
  induction l with
  | nil => intro a d d'; rfl
  | cons b t ih =>
    intro a d d'
    simp only [List.getLastD_cons]

/-- Replacing the head of a nonempty list by an entry with the same `left`
does not change the `left` of the last element. -/
theorem getLastD_left_head_eq :
    ∀ (rest : List distance_parabola_stack_entry) (a b d : distance_parabola_stack_entry),
      a.left = b.left →
      (List.getLastD (a :: rest) d).left = (List.getLastD (b :: rest) d).left := by
  intro rest
  cases rest with
  | nil => intro a b d h; simpa using h
  | cons r t =>
    intro a b d h
    simp only [List.getLastD_cons]

/-- Pushing a new entry on a stack whose head's `left` is unchanged keeps the
`left` of the bottom entry. -/
theorem getLastD_left_push (rest : List distance_parabola_stack_entry)
    (x a b d : distance_parabola_stack_entry) (h : a.left = b.left)
    (hb : ((b :: rest).getLastD d).left = 0) :
    ((x :: a :: rest).getLastD d).left = 0 := by
  have h1 : (x :: a :: rest).getLastD d = (a :: rest).getLastD x := List.getLastD_cons x x _
  have h2 : (a :: rest).getLastD x = (a :: rest).getLastD d := getLastD_indep rest a x d
  rw [h1, h2, getLastD_left_head_eq rest a b d h]
  exact hb

/-- Core preservation lemma: running the pop loop for position `m+1` on a
stack satisfying the invariant (with the pop-loop bookkeeping hypotheses) and
pushing the new entry re-establishes the invariant for `m+1`. -/
theorem popLoop_spec {sigma2 w : ℚ} {f : ℕ → ℚ} (hs : 0 < sigma2) (m : ℕ) :
    ∀ st : List distance_parabola_stack_entry, st ≠ [] →
      List.Chain' (StackRel sigma2 w) st →
      (st.getLastD dummyEntry).left = 0 →
      (∀ e ∈ st, EntryBound m f e ∧ EntryMin sigma2 f m e ∧ 0 ≤ e.left ∧ e.right ≤ w) →
      DomFrom sigma2 f m w (st.headD dummyEntry).right →
      ((st.headD dummyEntry).right = w ∨
        interRaw sigma2 (f (m + 1)) ((m + 1 : ℕ) : ℚ) (st.headD dummyEntry).apex_height
          (st.headD dummyEntry).center ≤ (st.headD dummyEntry).right) →
      StackInv sigma2 w f (m + 1)
        (⟨(popLoop sigma2 (2 * sigma2) (f (m + 1)) ((m + 1 : ℕ) : ℚ) st).1,
            ((m + 1 : ℕ) : ℚ), w, f (m + 1)⟩ ::
          (popLoop sigma2 (2 * sigma2) (f (m + 1)) ((m + 1 : ℕ) : ℚ) st).2) := by
  intro st
  induction st with
  | nil => intro h; exact absurd rfl h
  | cons s rest ih =>
    intro _ hchain hlast hbundle hdom htop
    obtain ⟨⟨js, hjs, hcs, has⟩, hsmin, hsl0, hsrw⟩ := hbundle s (List.mem_cons_self s rest)
    have hclt : s.center < ((m + 1 : ℕ) : ℚ) := by
      rw [hcs]; exact_mod_cast Nat.lt_succ_of_le hjs
    have hdom' : DomFrom sigma2 f m w s.right := hdom
    rw [popLoop_cons_eq]
    by_cases h1 :
        interRaw sigma2 (f (m + 1)) ((m + 1 : ℕ) : ℚ) s.apex_height s.center < s.left
    · -- pop branch: the top of the stack is dominated everywhere on its interval
      rw [if_pos h1]
      cases rest with
      | nil =>
        -- the whole stack was popped; the new parabola dominates all of [0, w)
        have hsl : s.left = 0 := hlast
        simp only [List.isEmpty_nil, if_true]
        refine ⟨List.cons_ne_nil _ _, rfl, rfl, rfl, List.chain'_singleton _, ?_⟩
        intro e he
        rcases List.mem_cons.mp he with rfl | he'
        · refine ⟨⟨m + 1, le_refl _, rfl, rfl⟩, ?_, le_refl _, le_refl _⟩
          intro x hx1 hx2 jn hjn
          by_cases hjn' : jn ≤ m
          · have hXx : interRaw sigma2 (f (m + 1)) ((m + 1 : ℕ) : ℚ) s.apex_height s.center
                ≤ x := le_trans (le_of_lt h1) (by rw [hsl]; exact hx1)
            by_cases hxr : x < s.right
            · have hstep := new_le_old hs hclt hXx
              have hmin := hsmin x (by rw [hsl]; exact hx1) hxr jn hjn'
              exact le_trans hstep hmin
            · exact hdom' x (le_of_not_lt hxr) hx2 jn hjn'
          · have hjeq : jn = m + 1 := by omega
            subst hjeq
            exact le_of_eq rfl
        · exact absurd he' (List.not_mem_nil e)
      | cons b t =>
        have hcbt : StackRel sigma2 w s b ∧ List.Chain' (StackRel sigma2 w) (b :: t) :=
          List.chain'_cons.mp hchain
        obtain ⟨⟨jb, hjb, hcb, hab⟩, hbmin, hbl0, hbrw⟩ :=
          hbundle b (List.mem_cons_of_mem s (List.mem_cons_self b t))
        have hbclt : b.center < ((m + 1 : ℕ) : ℚ) := lt_trans hcbt.1.1 hclt
        simp only [List.isEmpty_cons, if_false, Bool.false_eq_true]
        have hlast' : ((b :: t).getLastD dummyEntry).left = 0 := by
          rw [show ((s :: b :: t).getLastD dummyEntry) = ((b :: t).getLastD s) from
            List.getLastD_cons s s (b :: t), getLastD_indep t b s dummyEntry] at hlast
          exact hlast
        have hbundle' : ∀ e ∈ b :: t,
            EntryBound m f e ∧ EntryMin sigma2 f m e ∧ 0 ≤ e.left ∧ e.right ≤ w :=
          fun e he => hbundle e (List.mem_cons_of_mem s he)
        have hdomb : DomFrom sigma2 f m w ((b :: t).headD dummyEntry).right := by
          simp only [List.headD_cons]
          rcases hcbt.1.2.2.2 with hbr | hbr
          · intro x hx1 hx2 jn hjn
            rw [hbr] at hx1
            by_cases hxr : x < s.right
            · have hXx : interRaw sigma2 (f (m + 1)) ((m + 1 : ℕ) : ℚ) s.apex_height s.center
                  ≤ x := le_trans (le_of_lt h1) hx1
              have hstep := new_le_old hs hclt hXx
              exact le_trans hstep (hsmin x hx1 hxr jn hjn)
            · exact hdom' x (le_of_not_lt hxr) hx2 jn hjn
          · intro x hx1 hx2 jn hjn
            rw [hbr.1] at hx1
            exact absurd (lt_of_lt_of_le hx2 hx1) (lt_irrefl x)
        have htopb : ((b :: t).headD dummyEntry).right = w ∨
            interRaw sigma2 (f (m + 1)) ((m + 1 : ℕ) : ℚ)
              ((b :: t).headD dummyEntry).apex_height
              ((b :: t).headD dummyEntry).center ≤ ((b :: t).headD dummyEntry).right := by
          simp only [List.headD_cons]
          rcases hcbt.1.2.2.2 with hbr | hbr
          · refine Or.inr ?_
            -- at y = s.left the new parabola is below s's, and s's equals b's there
            have hy1 : sigma2 * sq (s.left - ((m + 1 : ℕ) : ℚ)) + f (m + 1)
                ≤ sigma2 * sq (s.left - s.center) + s.apex_height :=
              new_le_old hs hclt (le_of_lt h1)
            have hy2 : sigma2 * sq (s.left - b.center) + b.apex_height
                = sigma2 * sq (s.left - s.center) + s.apex_height := by
              rw [hcbt.1.2.2.1]
              exact parab_eq_at_inter (ne_of_gt hs) (ne_of_lt hcbt.1.1)
            have hble : sigma2 * sq (s.left - ((m + 1 : ℕ) : ℚ)) + f (m + 1)
                ≤ sigma2 * sq (s.left - b.center) + b.apex_height := by
              rw [hy2]; exact hy1
            rw [hbr]
            exact inter_le_of_new_le hs hbclt hble
          · exact Or.inl hbr.1
        exact ih (List.cons_ne_nil b t) hcbt.2 hlast' hbundle' hdomb htopb
    · -- the new parabola does not dominate the whole top interval
      have hXl : s.left ≤ interRaw sigma2 (f (m + 1)) ((m + 1 : ℕ) : ℚ) s.apex_height s.center :=
        le_of_not_lt h1
      -- common fact: every entry strictly below s stays minimal against the
      -- new parabola because its interval lies left of the intersection
      have hrest_min : ∀ e ∈ rest, EntryMin sigma2 f (m + 1) e := by
        intro e he
        obtain ⟨⟨je, hje, hce, hae⟩, hemin, hel0, herw⟩ :=
          hbundle e (List.mem_cons_of_mem s he)
        intro x hx1 hx2 jn hjn
        by_cases hjn' : jn ≤ m
        · exact hemin x hx1 hx2 jn hjn'
        · have hjeq : jn = m + 1 := by omega
          subst hjeq
          have hxX : x ≤ interRaw sigma2 (f (m + 1)) ((m + 1 : ℕ) : ℚ) s.apex_height s.center := by
            rcases chain_below_le_left hchain e he with hr | hr
            · exact le_trans (le_of_lt (lt_of_lt_of_le hx2 hr)) hXl
            · exact le_trans (le_of_lt (lt_of_lt_of_le hx2 (le_trans herw hr))) hXl
          have h1e : sigma2 * sq (x - e.center) + e.apex_height
              ≤ sigma2 * sq (x - s.center) + s.apex_height := by
            have := hemin x hx1 hx2 js hjs
            rw [parabolaAt_def, ← hcs, ← has] at this
            exact this
          exact le_trans h1e (old_le_new hs hclt hxX)
      -- the top entry itself stays minimal on any part of its interval left
      -- of the intersection
      have hs_min' : ∀ x, s.left ≤ x → x < s.right →
          x ≤ interRaw sigma2 (f (m + 1)) ((m + 1 : ℕ) : ℚ) s.apex_height s.center →
          ∀ jn ≤ m + 1, sigma2 * sq (x - s.center) + s.apex_height
            ≤ parabolaAt sigma2 f jn x := by
        intro x hx1 hx2 hxX jn hjn
        by_cases hjn' : jn ≤ m
        · exact hsmin x hx1 hx2 jn hjn'
        · have hjeq : jn = m + 1 := by omega
          subst hjeq
          exact old_le_new hs hclt hxX
      by_cases h2 :
          interRaw sigma2 (f (m + 1)) ((m + 1 : ℕ) : ℚ) s.apex_height s.center < s.right
      · -- clip branch
        rw [if_neg h1, if_pos h2]
        have hXw : interRaw sigma2 (f (m + 1)) ((m + 1 : ℕ) : ℚ) s.apex_height s.center ≤ w :=
          le_trans (le_of_lt h2) hsrw
        refine ⟨List.cons_ne_nil _ _, rfl, rfl, ?_, ?_, ?_⟩
        · exact getLastD_left_push rest _ _ s dummyEntry rfl hlast
        · -- chain
          refine List.chain'_cons.mpr ⟨⟨hclt, hXl, rfl, Or.inl rfl⟩, ?_⟩
          cases rest with
          | nil => exact List.chain'_singleton _
          | cons b t =>
            have hcbt := List.chain'_cons.mp hchain
            exact List.chain'_cons.mpr ⟨hcbt.1, hcbt.2⟩
        · -- per-entry bundle
          intro e he
          rcases List.mem_cons.mp he with rfl | he'
          · -- new top entry
            refine ⟨⟨m + 1, le_refl _, rfl, rfl⟩, ?_, le_trans hsl0 hXl, le_refl w⟩
            intro x hx1 hx2 jn hjn
            by_cases hjn' : jn ≤ m
            · by_cases hxr : x < s.right
              · have hstep := new_le_old hs hclt hx1
                exact le_trans hstep (hsmin x (le_trans hXl hx1) hxr jn hjn')
              · exact hdom' x (le_of_not_lt hxr) hx2 jn hjn'
            · have hjeq : jn = m + 1 := by omega
              subst hjeq
              exact le_of_eq rfl
          · rcases List.mem_cons.mp he' with rfl | he''
            · -- clipped old top
              refine ⟨⟨js, Nat.le_succ_of_le hjs, hcs, has⟩, ?_, hsl0, hXw⟩
              intro x hx1 hx2 jn hjn
              exact hs_min' x hx1 (lt_trans hx2 h2) (le_of_lt hx2) jn hjn
            · -- deeper entries
              obtain ⟨⟨je, hje, hce, hae⟩, hemin, hel0, herw⟩ :=
                hbundle e (List.mem_cons_of_mem s he'')
              exact ⟨⟨je, Nat.le_succ_of_le hje, hce, hae⟩, hrest_min e he'', hel0, herw⟩
      · -- no-clip branch: the intersection lies at or beyond the top's right
        rw [if_neg h1, if_neg h2]
        have hrX : s.right ≤ interRaw sigma2 (f (m + 1)) ((m + 1 : ℕ) : ℚ) s.apex_height s.center :=
          le_of_not_lt h2
        refine ⟨List.cons_ne_nil _ _, rfl, rfl, ?_, ?_, ?_⟩
        · exact getLastD_left_push rest _ s s dummyEntry rfl hlast
        · refine List.chain'_cons.mpr ⟨⟨hclt, hXl, rfl, ?_⟩, hchain⟩
          rcases htop with hw | hXle
          · exact Or.inr ⟨hw, hw ▸ hrX⟩
          · exact Or.inl (le_antisymm hrX hXle)
        · intro e he
          rcases List.mem_cons.mp he with rfl | he'
          · refine ⟨⟨m + 1, le_refl _, rfl, rfl⟩, ?_, le_trans hsl0 hXl, le_refl w⟩
            intro x hx1 hx2 jn hjn
            by_cases hjn' : jn ≤ m
            · exact hdom' x (le_trans hrX hx1) hx2 jn hjn'
            · have hjeq : jn = m + 1 := by omega
              subst hjeq
              exact le_of_eq rfl
          · rcases List.mem_cons.mp he' with rfl | he''
            · refine ⟨⟨js, Nat.le_succ_of_le hjs, hcs, has⟩, ?_, hsl0, hsrw⟩
              intro x hx1 hx2 jn hjn
              exact hs_min' x hx1 hx2 (le_trans (le_of_lt hx2) hrX) jn hjn
            · obtain ⟨⟨je, hje, hce, hae⟩, hemin, hel0, herw⟩ :=
                hbundle e (List.mem_cons_of_mem s he'')
              exact ⟨⟨je, Nat.le_succ_of_le hje, hce, hae⟩, hrest_min e he'', hel0, herw⟩

/-- One forward-pass iteration preserves the stack invariant. -/
theorem forwardStep_spec {sigma2 w : ℚ} {f : ℕ → ℚ} (hs : 0 < sigma2) (m : ℕ)
    (st : List distance_parabola_stack_entry) (hinv : StackInv sigma2 w f m st) :
    StackInv sigma2 w f (m + 1) (forwardStep sigma2 (2 * sigma2) w f (m + 1) st) := by
  obtain ⟨hne, hhr, hhc, hlast, hchain, hbundle⟩ := hinv
  have hdom : DomFrom sigma2 f m w (st.headD dummyEntry).right := by
    rw [hhr]
    intro x hx1 hx2
    exact absurd (lt_of_le_of_lt hx1 hx2) (lt_irrefl w)
  exact popLoop_spec hs m st hne hchain hlast hbundle hdom (Or.inl hhr)

/-- The initial stack (the single parabola at position 0) satisfies the
invariant with `m = 0`. -/
theorem initStack_inv {sigma2 w : ℚ} {f : ℕ → ℚ} :
    StackInv sigma2 w f 0 (initStack w f) := by
  refine ⟨List.cons_ne_nil _ _, rfl, by simp [initStack], rfl, List.chain'_singleton _, ?_⟩
  intro e he
  rcases List.mem_cons.mp he with rfl | he'
  · refine ⟨⟨0, le_refl _, by simp, rfl⟩, ?_, le_refl _, le_refl _⟩
    intro x hx1 hx2 jn hjn
    have hjn0 : jn = 0 := Nat.le_zero.mp hjn
    subst hjn0
    simp [parabolaAt_def]
  · exact absurd he' (List.not_mem_nil e)

/-- Folding the forward pass over consecutive positions preserves the
invariant (the top index advances with the fold). -/
theorem forwardLoop_inv {sigma2 w : ℚ} {f : ℕ → ℚ} (hs : 0 < sigma2) :
    ∀ (t m : ℕ) (st : List distance_parabola_stack_entry), StackInv sigma2 w f m st →
      StackInv sigma2 w f (m + t)
        (forwardLoop sigma2 (2 * sigma2) w f (List.range' (m + 1) t) st) := by
  intro t
  induction t with
  | zero => intro m st h; simpa [forwardLoop] using h
  | succ t iht =>
    intro m st h
    have hr : List.range' (m + 1) (t + 1) = (m + 1) :: List.range' (m + 2) t :=
      List.range'_succ (m + 1) t 1
    rw [hr]
    have h1 := forwardStep_spec hs m st h
    have h2 := iht (m + 1) _ h1
    have hmt : m + 1 + t = m + (t + 1) := by omega
    rw [hmt] at h2
    exact h2

/-- Every state recorded in the forward-pass trace satisfies the invariant
for its position. -/
theorem forwardTrace_inv {sigma2 w : ℚ} {f : ℕ → ℚ} (hs : 0 < sigma2) :
    ∀ (t m : ℕ) (st : List distance_parabola_stack_entry), StackInv sigma2 w f m st →
      ∀ p ∈ forwardTrace sigma2 (2 * sigma2) w f (List.range' (m + 1) t) st,
        StackInv sigma2 w f (p.1 - 1) p.2 := by
  intro t
  induction t with
  | zero => intro m st h p hp; exact absurd hp (List.not_mem_nil p)
  | succ t iht =>
    intro m st h p hp
    rw [List.range'_succ (m + 1) t 1] at hp
    simp only [forwardTrace] at hp
    rcases List.mem_cons.mp hp with rfl | hp'
    · simpa using h
    · exact iht (m + 1) _ (forwardStep_spec hs m st h) p hp'

/-- The output scan on the bottom-first stack returns the value of the
minimal parabola: it both equals one of the candidate parabolas and lower
bounds all of them. -/
theorem readStack_spec {sigma2 w : ℚ} {f : ℕ → ℚ} {m : ℕ} :
    ∀ L : List distance_parabola_stack_entry, L ≠ [] →
      List.Chain' (fun l u => StackRel sigma2 w u l) L →
      (∀ e ∈ L, EntryBound m f e ∧ EntryMin sigma2 f m e ∧ 0 ≤ e.left ∧ e.right ≤ w) →
      (L.getLastD dummyEntry).right = w →
      ∀ x, (L.headD dummyEntry).left ≤ x → x < w →
        ∃ jn, jn ≤ m ∧ readStack sigma2 L x = parabolaAt sigma2 f jn x ∧
          ∀ j' ≤ m, readStack sigma2 L x ≤ parabolaAt sigma2 f j' x := by
  intro L
  induction L with
  | nil => intro h; exact absurd rfl h
  | cons e Lt ih =>
    intro _ hchain hbundle hlastw x hx1 hx2
    obtain ⟨⟨je, hje, hce, hae⟩, hemin, hel0, herw⟩ := hbundle e (List.mem_cons_self e Lt)
    by_cases hr : e.right ≤ x
    · simp only [readStack, if_pos hr]
      cases Lt with
      | nil =>
        exfalso
        have hew : e.right = w := hlastw
        rw [hew] at hr
        exact absurd (lt_of_lt_of_le hx2 hr) (lt_irrefl x)
      | cons b t =>
        have hcbt := List.chain'_cons.mp hchain
        have hlastw' : ((b :: t).getLastD dummyEntry).right = w := by
          rw [show ((e :: b :: t).getLastD dummyEntry) = ((b :: t).getLastD e) from
            List.getLastD_cons e e (b :: t), getLastD_indep t b e dummyEntry] at hlastw
          exact hlastw
        have hx1' : ((b :: t).headD dummyEntry).left ≤ x := by
          simp only [List.headD_cons]
          rcases hcbt.1.2.2.2 with hbe | hbe
          · rw [← hbe]; exact hr
          · exfalso
            rw [hbe.1] at hr
            exact absurd (lt_of_lt_of_le hx2 hr) (lt_irrefl x)
        exact ih (List.cons_ne_nil b t) hcbt.2
          (fun e' he' => hbundle e' (List.mem_cons_of_mem e he')) hlastw' x hx1' hx2
    · simp only [readStack, if_neg hr]
      push_neg at hr
      refine ⟨je, hje, ?_, ?_⟩
      · rw [parabolaAt_def, ← hce, ← hae]
      · intro j' hj'
        exact hemin x hx1 hr j' hj'

/-- `headD` of a reversed list is `getLastD` of the original. -/
theorem reverse_headD {α : Type} (l : List α) (d : α) : (l.reverse).headD d = l.getLastD d := by
  rw [List.headD_eq_head?, List.head?_reverse, List.getLastD_eq_getLast?]

/-- `getLastD` of a reversed list is `headD` of the original. -/
theorem reverse_getLastD {α : Type} (l : List α) (d : α) : (l.reverse).getLastD d = l.headD d := by
  rw [List.getLastD_eq_getLast?, List.getLast?_reverse, List.headD_eq_head?]

/-- Indexing a mapped `range`. -/
theorem getD_map_range (n k : ℕ) (g : ℕ → ℚ) (hk : k < n) :
    ((List.range n).map g).getD k 0 = g k := by
  rw [List.getD_eq_getElem?_getD]
  simp [List.getElem?_map, List.getElem?_range, hk]

/-- Functional correctness of `distance_parabola` in the distance direction
(`invert = false`, nonzero `sigma`): the output at position `k` is the exact
minimum over all sample positions `j` of `sigma²·(k−j)² + in(j)`. -/
theorem distance_parabola_correct (lin : List ℚ) (sigma : ℚ) (hsig : sigma ≠ 0)
    (hlen : lin ≠ []) (hne : (Finset.range lin.length).Nonempty) (k : ℕ)
    (hk : k < lin.length) :
    (distance_parabola lin sigma false).getD k 0 =
      (Finset.range lin.length).inf' hne
        (fun j => sq sigma * sq ((k : ℚ) - (j : ℚ)) + lin.getD j 0) := by
  have hs2 : (0 : ℚ) < sq sigma := mul_self_pos.mpr hsig
  have hlen0 : lin.length ≠ 0 := fun h => hlen (List.length_eq_zero.mp h)
  have hlen1 : 1 ≤ lin.length := Nat.one_le_iff_ne_zero.mpr hlen0
  have hinit : StackInv (sq sigma) (lin.length : ℚ) (lineFun lin) 0
      (initStack (lin.length : ℚ) (lineFun lin)) := initStack_inv
  have hfin : StackInv (sq sigma) (lin.length : ℚ) (lineFun lin) (lin.length - 1)
      (finalStack lin sigma false) := by
    have h := forwardLoop_inv hs2 (lin.length - 1) 0 _ hinit
    rw [Nat.zero_add] at h
    exact h
  obtain ⟨hne', hhr, hhc, hlast, hchain, hbundle⟩ := hfin
  have hLne : (finalStack lin sigma false).reverse ≠ [] := by simpa using hne'
  have hLchain : List.Chain'
      (fun l u => StackRel (sq sigma) (lin.length : ℚ) u l)
      (finalStack lin sigma false).reverse :=
    List.chain'_reverse.mpr hchain
  have hLbundle : ∀ e ∈ (finalStack lin sigma false).reverse,
      EntryBound (lin.length - 1) (lineFun lin) e ∧
      EntryMin (sq sigma) (lineFun lin) (lin.length - 1) e ∧
      0 ≤ e.left ∧ e.right ≤ (lin.length : ℚ) :=
    fun e he => hbundle e (List.mem_reverse.mp he)
  have hLlast : (((finalStack lin sigma false).reverse).getLastD dummyEntry).right
      = (lin.length : ℚ) := by
    rw [reverse_getLastD]; exact hhr
  have hLhead : (((finalStack lin sigma false).reverse).headD dummyEntry).left = 0 := by
    rw [reverse_headD]; exact hlast
  obtain ⟨jn, hjn, heq, hbound⟩ :=
    readStack_spec ((finalStack lin sigma false).reverse) hLne hLchain hLbundle hLlast
      (k : ℚ) (by rw [hLhead]; exact Nat.cast_nonneg k) (by exact_mod_cast hk)
  have hval : (distance_parabola lin sigma false).getD k 0 =
      readStack (sq sigma) ((finalStack lin sigma false).reverse) (k : ℚ) := by
    unfold distance_parabola
    rw [if_neg hlen0]
    exact getD_map_range _ _ _ hk
  rw [hval]
  apply le_antisymm
  · refine Finset.le_inf' hne _ ?_
    intro j hj
    have hjm : j ≤ lin.length - 1 := by
      have := Finset.mem_range.mp hj
      omega
    exact hbound j hjm
  · rw [heq]
    have hjnr : jn ∈ Finset.range lin.length := Finset.mem_range.mpr (by omega)
    exact Finset.inf'_le _ hjnr

/-- `distance_parabola` preserves the line length. -/
theorem distance_parabola_length (lin : List ℚ) (sigma : ℚ) (invert : Bool) :
    (distance_parabola lin sigma invert).length = lin.length := by
  unfold distance_parabola
  by_cases h : lin.length = 0
  · rw [if_pos h, h]; rfl
  · rw [if_neg h, List.length_map, List.length_range]

/-- Length of a row. -/
theorem rowOf_length (n : ℕ) (f : ℕ → ℕ → ℚ) (i : ℕ) : (rowOf n f i).length = n := by
  unfold rowOf; rw [List.length_map, List.length_range]

/-- Length of a column. -/
theorem colOf_length (m : ℕ) (g : ℕ → ℕ → ℚ) (j : ℕ) : (colOf m g j).length = m := by
  unfold colOf; rw [List.length_map, List.length_range]

/-- Entries of a row. -/
theorem rowOf_getD (n : ℕ) (f : ℕ → ℕ → ℚ) (i j : ℕ) (hj : j < n) :
    (rowOf n f i).getD j 0 = f i j := getD_map_range n j (f i) hj

/-- Entries of a column. -/
theorem colOf_getD (m : ℕ) (g : ℕ → ℕ → ℚ) (i j : ℕ) (hi : i < m) :
    (colOf m g j).getD i 0 = g i j := getD_map_range m i (fun i' => g i' j) hi

/-- Adding a constant distributes over a finite minimum. -/
theorem inf'_const_add {β : Type} (s : Finset β) (hne : s.Nonempty) (F : β → ℚ) (c : ℚ) :
    c + s.inf' hne F = s.inf' hne (fun b => c + F b) := by
  apply le_antisymm
  · apply Finset.le_inf'
    intro b hb
    exact add_le_add_left (Finset.inf'_le F hb) c
  · obtain ⟨b, hb, hbeq⟩ := Finset.exists_mem_eq_inf' hne F
    rw [hbeq]
    exact Finset.inf'_le _ hb

/-- Functional correctness of the 2-D separable sweep: after the row pass and
the column pass, position `(i, j)` holds the exact minimum over all positions
`q` of `sigma0²·(i−q.1)² + sigma1²·(j−q.2)² + f q`.  This is the additivity of
squared per-axis offsets that the axis-by-axis sweep relies on. -/
theorem distance_transform_impl_correct (m n : ℕ) (f : ℕ → ℕ → ℚ) (s0 s1 : ℚ)
    (h0 : s0 ≠ 0) (h1 : s1 ≠ 0) (hm : 0 < m) (hn : 0 < n)
    (hneP : ((Finset.range m) ×ˢ (Finset.range n)).Nonempty)
    (i j : ℕ) (hi : i < m) (hj : j < n) :
    distance_transform_impl m n f s0 s1 false i j =
      ((Finset.range m) ×ˢ (Finset.range n)).inf' hneP
        (fun q => sq s0 * sq ((i : ℚ) - (q.1 : ℚ)) + sq s1 * sq ((j : ℚ) - (q.2 : ℚ))
          + f q.1 q.2) := by
  have hnem : (Finset.range m).Nonempty := Finset.nonempty_range_iff.mpr (Nat.pos_iff_ne_zero.mp hm)
  have hnen : (Finset.range n).Nonempty := Finset.nonempty_range_iff.mpr (Nat.pos_iff_ne_zero.mp hn)
  have hrow : ∀ (i' j' : ℕ), j' < n →
      (distance_parabola (rowOf n f i') s1 false).getD j' 0 =
        (Finset.range n).inf' hnen
          (fun q2 => sq s1 * sq ((j' : ℚ) - (q2 : ℚ)) + f i' q2) := by
    intro i' j' hj'
    have hlen : (rowOf n f i').length = n := rowOf_length n f i'
    have hlnil : rowOf n f i' ≠ [] := by
      intro h
      rw [h] at hlen
      simp at hlen
      omega
    have hne1 : (Finset.range (rowOf n f i').length).Nonempty := by
      rw [hlen]; exact hnen
    have h := distance_parabola_correct (rowOf n f i') s1 h1 hlnil hne1 j'
      (by rw [hlen]; exact hj')
    rw [h]
    refine Finset.inf'_congr hne1 (by rw [hlen]) ?_
    intro q2 hq2
    have hq2n : q2 < n := by
      rw [hlen] at hq2
      exact Finset.mem_range.mp hq2
    rw [rowOf_getD n f i' q2 hq2n]
  have hcol : distance_transform_impl m n f s0 s1 false i j =
      (Finset.range m).inf' hnem
        (fun q1 => sq s0 * sq ((i : ℚ) - (q1 : ℚ))
          + (distance_parabola (rowOf n f q1) s1 false).getD j 0) := by
    unfold distance_transform_impl
    have hlen : (colOf m (fun i' j' =>
        (distance_parabola (rowOf n f i') s1 false).getD j' 0) j).length = m :=
      colOf_length m _ j
    have hlnil : colOf m (fun i' j' =>
        (distance_parabola (rowOf n f i') s1 false).getD j' 0) j ≠ [] := by
      intro h
      rw [h] at hlen
      simp at hlen
      omega
    have hne1 : (Finset.range (colOf m (fun i' j' =>
        (distance_parabola (rowOf n f i') s1 false).getD j' 0) j).length).Nonempty := by
      rw [hlen]; exact hnem
    have h := distance_parabola_correct _ s0 h0 hlnil hne1 i (by rw [hlen]; exact hi)
    rw [h]
    refine Finset.inf'_congr hne1 (by rw [hlen]) ?_
    intro q1 hq1
    have hq1m : q1 < m := by
      rw [hlen] at hq1
      exact Finset.mem_range.mp hq1
    rw [colOf_getD m _ q1 j hq1m]
  rw [hcol]
  have hstep : ∀ q1 ∈ Finset.range m,
      sq s0 * sq ((i : ℚ) - (q1 : ℚ))
        + (distance_parabola (rowOf n f q1) s1 false).getD j 0 =
      (Finset.range n).inf' hnen
        (fun q2 => sq s0 * sq ((i : ℚ) - (q1 : ℚ))
          + (sq s1 * sq ((j : ℚ) - (q2 : ℚ)) + f q1 q2)) := by
    intro q1 _
    rw [hrow q1 j hj]
    exact inf'_const_add (Finset.range n) hnen _ _
  rw [Finset.inf'_congr hnem rfl hstep]
  rw [Finset.inf'_product_left hneP]
  refine Finset.inf'_congr hnem rfl ?_
  intro q1 _
  refine Finset.inf'_congr hnen rfl ?_
  intro q2 _
  ring

/-- The square of a product. -/
theorem sq_mul (a b : ℚ) : sq (a * b) = sq a * sq b := by unfold sq; ring

/-- A position in the seed set receives seed value 0. -/
theorem seedArray_eq_zero_of_mem {m n : ℕ} {background : Bool} {f : ℕ → ℕ → ℚ}
    (inf : ℚ) {q : ℕ × ℕ} (hq : q ∈ seedSet m n background f) :
    seedArray background inf f q.1 q.2 = 0 := by
  have hcond := (Finset.mem_filter.mp hq).2
  cases background with
  | true =>
    have h : f q.1 q.2 ≠ 0 := by simpa using hcond
    simp [seedArray, h]
  | false =>
    have h : f q.1 q.2 = 0 := by simpa using hcond
    simp [seedArray, h]

/-- A position outside the seed set receives seed value `inf`. -/
theorem seedArray_eq_inf_of_not_mem {m n : ℕ} {background : Bool} {f : ℕ → ℕ → ℚ}
    (inf : ℚ) {q : ℕ × ℕ} (hq : q ∈ (Finset.range m) ×ˢ (Finset.range n))
    (hq' : q ∉ seedSet m n background f) :
    seedArray background inf f q.1 q.2 = inf := by
  have hcond : ¬ (if background then f q.1 q.2 ≠ 0 else f q.1 q.2 = 0) := by
    intro hc
    exact hq' (Finset.mem_filter.mpr ⟨hq, hc⟩)
  cases background with
  | true =>
    have h : f q.1 q.2 = 0 := by simpa using hcond
    simp [seedArray, h]
  | false =>
    have h : f q.1 q.2 ≠ 0 := by simpa using hcond
    simp [seedArray, h]

/-- Any pitch-weighted squared distance between two in-range positions is
strictly below the sentinel `inf`. -/
theorem dist_lt_computeInf (m n : ℕ) (p0 p1 : ℚ) (i j q1 q2 : ℕ)
    (hi : i < m) (hj : j < n) (hq1 : q1 < m) (hq2 : q2 < n) :
    sq p0 * sq ((i : ℚ) - (q1 : ℚ)) + sq p1 * sq ((j : ℚ) - (q2 : ℚ))
      < computeInf m n p0 p1 := by
  have him : (i : ℚ) < m := by exact_mod_cast hi
  have hq1m : (q1 : ℚ) < m := by exact_mod_cast hq1
  have hjn : (j : ℚ) < n := by exact_mod_cast hj
  have hq2n : (q2 : ℚ) < n := by exact_mod_cast hq2
  have h0i : (0 : ℚ) ≤ i := Nat.cast_nonneg i
  have h0q1 : (0 : ℚ) ≤ q1 := Nat.cast_nonneg q1
  have h0j : (0 : ℚ) ≤ j := Nat.cast_nonneg j
  have h0q2 : (0 : ℚ) ≤ q2 := Nat.cast_nonneg q2
  have h1 : sq ((i : ℚ) - (q1 : ℚ)) ≤ sq ((m : ℕ) : ℚ) := by unfold sq; nlinarith
  have h2 : sq ((j : ℚ) - (q2 : ℚ)) ≤ sq ((n : ℕ) : ℚ) := by unfold sq; nlinarith
  have h3 : sq p0 * sq ((i : ℚ) - (q1 : ℚ)) ≤ sq p0 * sq ((m : ℕ) : ℚ) :=
    mul_le_mul_of_nonneg_left h1 (sq_nonneg_q p0)
  have h4 : sq p1 * sq ((j : ℚ) - (q2 : ℚ)) ≤ sq p1 * sq ((n : ℕ) : ℚ) :=
    mul_le_mul_of_nonneg_left h2 (sq_nonneg_q p1)
  have h5 : computeInf m n p0 p1 = 1 + sq p0 * sq ((m : ℕ) : ℚ) + sq p1 * sq ((n : ℕ) : ℚ) := by
    unfold computeInf
    rw [sq_mul, sq_mul]
  rw [h5]
  linarith

/-- Eliminating the sentinel: the minimum over all positions of
(squared distance + seed value) is the minimum over seed positions of the
squared distance alone. -/
theorem seed_inf_eq (m n : ℕ) (background : Bool) (f : ℕ → ℕ → ℚ) (p0 p1 : ℚ)
    (hneP : ((Finset.range m) ×ˢ (Finset.range n)).Nonempty)
    (hneS : (seedSet m n background f).Nonempty)
    (i j : ℕ) (hi : i < m) (hj : j < n) :
    ((Finset.range m) ×ˢ (Finset.range n)).inf' hneP
      (fun q => sq p0 * sq ((i : ℚ) - (q.1 : ℚ)) + sq p1 * sq ((j : ℚ) - (q.2 : ℚ))
        + seedArray background (computeInf m n p0 p1) f q.1 q.2)
    = (seedSet m n background f).inf' hneS
      (fun q => sq (p0 * ((i : ℚ) - (q.1 : ℚ))) + sq (p1 * ((j : ℚ) - (q.2 : ℚ)))) := by
  apply le_antisymm
  · apply Finset.le_inf'
    intro q hq
    have hqfull : q ∈ (Finset.range m) ×ˢ (Finset.range n) := (Finset.mem_filter.mp hq).1
    have h := Finset.inf'_le
      (fun q => sq p0 * sq ((i : ℚ) - (q.1 : ℚ)) + sq p1 * sq ((j : ℚ) - (q.2 : ℚ))
        + seedArray background (computeInf m n p0 p1) f q.1 q.2) hqfull
    rw [seedArray_eq_zero_of_mem _ hq, add_zero] at h
    rw [sq_mul, sq_mul]
    exact h
  · apply Finset.le_inf'
    intro q hqfull
    by_cases hqs : q ∈ seedSet m n background f
    · have h := Finset.inf'_le
        (fun q => sq (p0 * ((i : ℚ) - (q.1 : ℚ))) + sq (p1 * ((j : ℚ) - (q.2 : ℚ)))) hqs
      rw [seedArray_eq_zero_of_mem _ hqs, add_zero, sq_mul, sq_mul] at *
      exact h
    · rw [seedArray_eq_inf_of_not_mem _ hqfull hqs]
      obtain ⟨q0, hq0⟩ := hneS
      have h1 := Finset.inf'_le
        (fun q => sq (p0 * ((i : ℚ) - (q.1 : ℚ))) + sq (p1 * ((j : ℚ) - (q.2 : ℚ)))) hq0
      have hq0full : q0 ∈ (Finset.range m) ×ˢ (Finset.range n) := (Finset.mem_filter.mp hq0).1
      have hq0m : q0.1 < m := Finset.mem_range.mp (Finset.mem_product.mp hq0full).1
      have hq0n : q0.2 < n := Finset.mem_range.mp (Finset.mem_product.mp hq0full).2
      have h2 := dist_lt_computeInf m n p0 p1 i j q0.1 q0.2 hi hj hq0m hq0n
      have h3 : (0 : ℚ) ≤ sq p0 * sq ((i : ℚ) - (q.1 : ℚ)) + sq p1 * sq ((j : ℚ) - (q.2 : ℚ)) :=
        add_nonneg (mul_nonneg (sq_nonneg_q p0) (sq_nonneg_q _))
          (mul_nonneg (sq_nonneg_q p1) (sq_nonneg_q _))
      rw [sq_mul, sq_mul] at h1
      linarith

/-- For integer bounds, the code's write-back expression
`where(tmp > hi, hi, where(tmp < lo, lo, round(tmp)))` agrees with
"clamp to `[lo, hi]`, then round to nearest". -/
theorem clampRound_code_eq_spec (lo hi : ℤ) (h : lo ≤ hi) (x : ℚ) :
    clampRoundCode lo hi x = clampRoundSpec lo hi x := by
  have hri : ∀ z : ℤ, roundHalfAway (z : ℚ) = z := by
    intro z
    unfold roundHalfAway
    by_cases hz : (z : ℚ) < 0
    · rw [if_pos hz]
      have hcast : -(z : ℚ) + 1 / 2 = 1 / 2 + ((-z : ℤ) : ℚ) := by push_cast; ring
      rw [hcast, Int.floor_add_int]
      norm_num
    · rw [if_neg hz]
      have hcast : (z : ℚ) + 1 / 2 = 1 / 2 + (z : ℚ) := by ring
      rw [hcast, Int.floor_add_int]
      norm_num
  unfold clampRoundCode clampRoundSpec
  by_cases h1 : (hi : ℚ) < x
  · rw [if_pos h1, min_eq_left (le_of_lt h1), max_eq_right (by exact_mod_cast h), hri hi]
  · rw [if_neg h1]
    push_neg at h1
    by_cases h2 : x < (lo : ℚ)
    · rw [if_pos h2, min_eq_right h1, max_eq_left (le_of_lt h2), hri lo]
    · rw [if_neg h2]
      push_neg at h2
      rw [min_eq_right h1, max_eq_right h2]

/-! ### Claim theorems -/

/-- Claim C1: for every 2-D binary mask of shape at most 10×10 containing at
least one zero and at least one nonzero pixel, every positive pitch, and both
values of the background flag (the destination being a real-valued,
non-integral element type, so no clamping applies),
`distance_transform_squared` writes at each in-range coordinate `(i, j)` the
exhaustive minimum, over all seed positions `q`, of
`(p0·(i−q.1))² + (p1·(j−q.2))²`. -/
theorem distance_transform_squared_exhaustive_min
    (m n : ℕ) (f : ℕ → ℕ → ℚ) (ty : DestType) (background : Bool) (p0 p1 : ℚ)
    (hm : 0 < m) (hm10 : m ≤ 10) (hn : 0 < n) (hn10 : n ≤ 10)
    (hbin : ∀ i < m, ∀ j < n, f i j = 0 ∨ f i j = 1)
    (hzero : ∃ i < m, ∃ j < n, f i j = 0)
    (hnonzero : ∃ i < m, ∃ j < n, f i j ≠ 0)
    (hty : ty.isIntegral = false)
    (hp0 : 0 < p0) (hp1 : 0 < p1)
    (hneS : (seedSet m n background f).Nonempty)
    (i j : ℕ) (hi : i < m) (hj : j < n) :
    distance_transform_squared m n f ty background p0 p1 i j
      = (seedSet m n background f).inf' hneS
          (fun q => sq (p0 * ((i : ℚ) - (q.1 : ℚ))) + sq (p1 * ((j : ℚ) - (q.2 : ℚ)))) := by
  have hneP : ((Finset.range m) ×ˢ (Finset.range n)).Nonempty :=
    ⟨(0, 0), Finset.mem_product.mpr ⟨Finset.mem_range.mpr hm, Finset.mem_range.mpr hn⟩⟩
  have hbranch : distance_transform_squared m n f ty background p0 p1
      = distance_transform_impl m n (seedArray background (computeInf m n p0 p1) f)
          p0 p1 false := by
    unfold distance_transform_squared
    rw [hty]
    rfl
  rw [hbranch,
    distance_transform_impl_correct m n _ p0 p1 (ne_of_gt hp0) (ne_of_gt hp1) hm hn hneP
      i j hi hj]
  exact seed_inf_eq m n background f p0 p1 hneP hneS i j hi hj

/-- Witness for claim C1: the 2×2 mask `[[0,1],[1,1]]` with `background = true`
and unit pitch, evaluated at `(0,0)`. -/
theorem distance_transform_squared_exhaustive_min_witness :
    distance_transform_squared 2 2 maskZeroCorner destDouble true 1 1 0 0
      = (seedSet 2 2 true maskZeroCorner).inf' (by decide)
          (fun q => sq (1 * ((0 : ℚ) - (q.1 : ℚ))) + sq (1 * ((0 : ℚ) - (q.2 : ℚ)))) :=
  distance_transform_squared_exhaustive_min 2 2 maskZeroCorner destDouble true 1 1
    (by decide) (by decide) (by decide) (by decide) (by decide) (by decide) (by decide)
    rfl (by decide) (by decide) (by decide) 0 0 (by decide) (by decide)

/-- Claim C2 (amended): the seeding step is the exact inverse of what the
claim states.  With `background = true` every position where the mask equals
zero receives the sentinel `inf` and every other position receives 0; with
`background = false` the nonzero positions receive `inf` and the zero
positions receive 0, where `inf = 1 + Σ_axis (pitch[axis]·shape[axis])²`. -/
theorem seeding_rule_amended (m n : ℕ) (f : ℕ → ℕ → ℚ) (background : Bool)
    (p0 p1 : ℚ) (i j : ℕ) :
    computeInf m n p0 p1 = 1 + sq (p0 * (m : ℚ)) + sq (p1 * (n : ℚ)) ∧
    (background = true →
      (f i j = 0 → seedArray background (computeInf m n p0 p1) f i j = computeInf m n p0 p1) ∧
      (f i j ≠ 0 → seedArray background (computeInf m n p0 p1) f i j = 0)) ∧
    (background = false →
      (f i j ≠ 0 → seedArray background (computeInf m n p0 p1) f i j = computeInf m n p0 p1) ∧
      (f i j = 0 → seedArray background (computeInf m n p0 p1) f i j = 0)) := by
  refine ⟨rfl, ?_, ?_⟩
  · rintro rfl
    constructor
    · intro h; simp [seedArray, h]
    · intro h; simp [seedArray, h]
  · rintro rfl
    constructor
    · intro h; simp [seedArray, h]
    · intro h; simp [seedArray, h]

/-- Counterexample to claim C2 as stated: on the 1×2 mask `[[0,1]]` with
`background = true`, the position `(0,0)` has mask value 0, yet its seed value
is the sentinel `inf = 6`, not 0 as the claim asserts. -/
theorem seeding_rule_counterexample :
    maskZeroOne 0 0 = 0 ∧
    seedArray true (computeInf 1 2 1 1) maskZeroOne 0 0 ≠ 0 ∧
    seedArray true (computeInf 1 2 1 1) maskZeroOne 0 0 = computeInf 1 2 1 1 := by
  refine ⟨by decide, by decide, by decide⟩

/-- Witness for claim C2 (amended): concrete evaluation of the amended
seeding rule on the mask `[[0,1]]`. -/
theorem seeding_rule_amended_witness :
    seedArray true (computeInf 1 2 1 1) maskZeroOne 0 0 = computeInf 1 2 1 1 :=
  ((seeding_rule_amended 1 2 maskZeroOne true 1 1 0 0).2.1 rfl).1 (by decide)

/-- Claim C3: every call of the (spec-modelled) validating entry points in
front of `distance_transform_squared` and `distance_transform` that violates
a precondition — destination shape different from source shape, pitch length
different from the rank 2, or some non-positive pitch entry — surfaces an
explicit error result instead of running the kernel. -/
theorem preconditions_surface_error (srcShape destShape : ℕ × ℕ) (f : ℕ → ℕ → ℚ)
    (ty : DestType) (background : Bool) (pitch : List ℚ)
    (hviol : destShape ≠ srcShape ∨ pitch.length ≠ 2 ∨ ∃ p ∈ pitch, ¬ (0 < p)) :
    (∃ msg, distance_transform_squared_checked srcShape destShape f ty background pitch
        = Except.error msg) ∧
    (∃ msg, distance_transform_checked srcShape destShape f ty background pitch
        = Except.error msg) := by
  constructor
  · by_cases h1 : destShape ≠ srcShape
    · exact ⟨_, by unfold distance_transform_squared_checked; rw [if_pos h1]⟩
    · by_cases h2 : pitch.length ≠ 2
      · exact ⟨_, by unfold distance_transform_squared_checked; rw [if_neg h1, if_pos h2]⟩
      · by_cases h3 : ¬ (∀ p ∈ pitch, 0 < p)
        · exact ⟨_, by
            unfold distance_transform_squared_checked
            rw [if_neg h1, if_neg h2, if_pos h3]⟩
        · exfalso
          rcases hviol with h | h | ⟨p, hp, hnp⟩
          · exact h1 h
          · exact h2 h
          · exact hnp ((not_not.mp h3) p hp)
  · by_cases h1 : destShape ≠ srcShape
    · exact ⟨_, by unfold distance_transform_checked; rw [if_pos h1]⟩
    · by_cases h2 : pitch.length ≠ 2
      · exact ⟨_, by unfold distance_transform_checked; rw [if_neg h1, if_pos h2]⟩
      · by_cases h3 : ¬ (∀ p ∈ pitch, 0 < p)
        · exact ⟨_, by
            unfold distance_transform_checked
            rw [if_neg h1, if_neg h2, if_pos h3]⟩
        · exfalso
          rcases hviol with h | h | ⟨p, hp, hnp⟩
          · exact h1 h
          · exact h2 h
          · exact hnp ((not_not.mp h3) p hp)

/-- Witness for claim C3: a concrete shape-mismatched call errors out. -/
theorem preconditions_surface_error_witness :
    (∃ msg, distance_transform_squared_checked (2, 2) (1, 2) maskZeroCorner destDouble
        true [1, 1] = Except.error msg) ∧
    (∃ msg, distance_transform_checked (2, 2) (1, 2) maskZeroCorner destDouble
        true [1, 1] = Except.error msg) :=
  preconditions_surface_error (2, 2) (1, 2) maskZeroCorner destDouble true [1, 1]
    (Or.inl (by decide))

/-- Claim C4: whenever the destination element type is integral and either
some pitch value is non-integer or `inf` exceeds the destination type's
representable maximum, `distance_transform_squared` computes the sweep in a
real-valued promoted temporary seeded from the mask and writes into the
destination the temporary's values clamped to `[type_min, type_max]` and
rounded to nearest integer; in particular, for an 8-bit unsigned destination
and a 20×20 mask with a single foreground seed in one corner, the far corner
holds 255 (saturated) rather than a wrapped value. -/
theorem integral_overflow_clamp_round :
    (∀ (m n : ℕ) (f : ℕ → ℕ → ℚ) (ty : DestType) (background : Bool) (p0 p1 : ℚ),
      ty.isIntegral = true →
      ty.lowest ≤ ty.highest →
      (pitch_is_real p0 p1 = true ∨ (ty.highest : ℚ) < computeInf m n p0 p1) →
      ∀ i j, distance_transform_squared m n f ty background p0 p1 i j
        = clampRoundSpec ty.lowest ty.highest
            (distance_transform_impl m n (seedArray background (computeInf m n p0 p1) f)
              p0 p1 false i j)) ∧
    distance_transform_squared 20 20 maskSeedCorner20 destUInt8 true 1 1 19 19 = 255 := by
  constructor
  · intro m n f ty background p0 p1 hint hlohi hcond i j
    have hb : (ty.isIntegral &&
        (pitch_is_real p0 p1 || decide ((ty.highest : ℚ) < computeInf m n p0 p1))) = true := by
      rw [hint, Bool.true_and, Bool.or_eq_true]
      rcases hcond with h | h
      · exact Or.inl h
      · exact Or.inr (decide_eq_true h)
    have hbranch : distance_transform_squared m n f ty background p0 p1
        = fun i j => clampRoundCode ty.lowest ty.highest
            (distance_transform_impl m n (seedArray background (computeInf m n p0 p1) f)
              p0 p1 false i j) := by
      unfold distance_transform_squared
      rw [hb]
      rfl
    rw [hbranch]
    exact clampRound_code_eq_spec ty.lowest ty.highest hlohi _
  · decide

/-- Witness for claim C4: a 1×1 call with the non-integral pitch 1/2 and an
8-bit destination goes through the promoted temporary and the clamp/round
write-back. -/
theorem integral_overflow_clamp_round_witness :
    distance_transform_squared 1 1 maskZeroOne destUInt8 false (1/2) 1 0 0
      = clampRoundSpec destUInt8.lowest destUInt8.highest
          (distance_transform_impl 1 1
            (seedArray false (computeInf 1 1 (1/2) 1) maskZeroOne) (1/2) 1 false 0 0) :=
  integral_overflow_clamp_round.1 1 1 maskZeroOne destUInt8 false (1/2) 1 rfl
    (by decide) (Or.inl (by decide)) 0 0

/-- Claim C5: `distance_parabola` applied to the 1-D line
`[0, inf, inf, inf, inf]` (length 5, seed at position 0, with
`inf = 1 + (1·5)² = 26` the sentinel of this configuration) with `sigma = 1`
and `invert = false` produces `[0, 1, 4, 9, 16]`, whose elementwise square
root is `[0, 1, 2, 3, 4]` (expressed by squaring the latter). -/
theorem distance_parabola_exact_line5 :
    distance_parabola [0, 26, 26, 26, 26] 1 false = [0, 1, 4, 9, 16] ∧
    ([0, 1, 2, 3, 4] : List ℚ).map sq = [0, 1, 4, 9, 16] :=
  ⟨by decide, by decide⟩

/-- Claim C9: flag/complement symmetry.  `distance_transform_squared` with
`background = true` on a mask equals `distance_transform_squared` with
`background = false` on the complemented mask, for every mask, destination
type and pitch. -/
theorem squared_complement_symmetry (m n : ℕ) (f : ℕ → ℕ → ℚ) (ty : DestType)
    (p0 p1 : ℚ) :
    distance_transform_squared m n f ty true p0 p1
      = distance_transform_squared m n (invertMask f) ty false p0 p1 := by
  have hseed : seedArray true (computeInf m n p0 p1) f
      = seedArray false (computeInf m n p0 p1) (invertMask f) := by
    funext i j
    unfold seedArray invertMask
    by_cases h : f i j = 0
    · simp [h]
    · simp [h]
  unfold distance_transform_squared
  rw [hseed]

/-- Claim C10: the overloads that omit the `background` flag default it to
`false`: the functor's two-argument `impl` and the three-argument
`distance_transform` produce exactly the same destination contents as the
corresponding explicit call with `background = false` and pitch 1.0 on every
axis. -/
theorem background_flag_default (m n : ℕ) (f : ℕ → ℕ → ℚ) (ty : DestType) :
    distance_transform_squared_noflag m n f ty
      = distance_transform_squared m n f ty false 1 1 ∧
    distance_transform_noflag m n f ty
      = distance_transform m n f ty false 1 1 :=
  ⟨rfl, rfl⟩

/-- Claim C8 (amended): `distance_transform` stores the elementwise square
root of `distance_transform_squared`'s result exactly when the destination
element type is real-valued (non-integral); when it is integral, the C++
assignment `out = sqrt(out)` converts the square root back by truncation
toward zero, so the stored value is the truncated square root.  Likewise for
the pitch-omitting overload. -/
theorem distance_transform_is_sqrt_amended (m n : ℕ) (f : ℕ → ℕ → ℚ) (ty : DestType)
    (background : Bool) (p0 p1 : ℚ) (i j : ℕ) :
    (ty.isIntegral = false →
      distance_transform m n f ty background p0 p1 i j
        = Real.sqrt ((distance_transform_squared m n f ty background p0 p1 i j : ℚ) : ℝ) ∧
      distance_transform_nopitch m n f ty background i j
        = Real.sqrt ((distance_transform_squared_nopitch m n f ty background i j : ℚ) : ℝ)) ∧
    (ty.isIntegral = true →
      distance_transform m n f ty background p0 p1 i j
        = ((cppTruncR (Real.sqrt
            ((distance_transform_squared m n f ty background p0 p1 i j : ℚ) : ℝ))) : ℝ) ∧
      distance_transform_nopitch m n f ty background i j
        = ((cppTruncR (Real.sqrt
            ((distance_transform_squared_nopitch m n f ty background i j : ℚ) : ℝ))) : ℝ)) := by
  constructor
  · intro h
    constructor
    · unfold distance_transform
      rw [h]
      simp
    · unfold distance_transform_nopitch
      rw [h]
      simp
  · intro h
    constructor
    · unfold distance_transform
      rw [h]
      simp
    · unfold distance_transform_nopitch
      rw [h]
      simp

/-- Counterexample to claim C8 as stated: on the 2×2 mask `[[1,1],[1,0]]`
with a 32-bit integral destination, the squared distance at `(0,0)` is 2, and
`distance_transform` stores `trunc(√2) = 1`, which is not `√2` — the result
is not exactly the elementwise square root for integral destinations. -/
theorem distance_transform_sqrt_trunc_counterexample :
    distance_transform 2 2 maskCornerZero destInt32 false 1 1 0 0
      ≠ Real.sqrt ((distance_transform_squared 2 2 maskCornerZero destInt32 false 1 1 0 0 : ℚ) : ℝ) := by
  have hsq : distance_transform_squared 2 2 maskCornerZero destInt32 false 1 1 0 0 = 2 := by
    decide
  have hsd : ((distance_transform_squared 2 2 maskCornerZero destInt32 false 1 1 0 0 : ℚ) : ℝ)
      = 2 := by rw [hsq]; norm_num
  have h1 : (1 : ℝ) ≤ Real.sqrt 2 := by
    rw [show (1 : ℝ) = Real.sqrt 1 from (Real.sqrt_one).symm]
    exact Real.sqrt_le_sqrt (by norm_num)
  have h2 : Real.sqrt 2 < 2 := by
    have h4 : Real.sqrt 2 < Real.sqrt 4 := Real.sqrt_lt_sqrt (by norm_num) (by norm_num)
    have h4' : Real.sqrt 4 = 2 := by
      rw [show (4 : ℝ) = 2 ^ 2 by norm_num]
      exact Real.sqrt_sq (by norm_num)
    rw [h4'] at h4
    exact h4
  have hfl : ⌊Real.sqrt 2⌋ = 1 := by
    rw [Int.floor_eq_iff]
    constructor
    · simpa using h1
    · push_cast
      linarith
  have hct : cppTruncR (Real.sqrt 2) = 1 := by
    unfold cppTruncR
    rw [if_neg (not_lt.mpr (Real.sqrt_nonneg 2)), hfl]
  have hlhs : distance_transform 2 2 maskCornerZero destInt32 false 1 1 0 0 = 1 := by
    unfold distance_transform
    rw [if_pos (show destInt32.isIntegral = true from rfl), hsd, hct]
    norm_num
  rw [hlhs, hsd]
  intro heq
  have hsq2 := Real.sq_sqrt (by norm_num : (0 : ℝ) ≤ 2)
  rw [← heq] at hsq2
  norm_num at hsq2

/-- Witness for claim C8 (amended): with a real-valued destination the round
trip is the exact square root, at a concrete input. -/
theorem distance_transform_is_sqrt_amended_witness :
    distance_transform 1 2 maskZeroOne destDouble true 1 1 0 0
      = Real.sqrt ((distance_transform_squared 1 2 maskZeroOne destDouble true 1 1 0 0 : ℚ) : ℝ) :=
  ((distance_transform_is_sqrt_amended 1 2 maskZeroOne destDouble true 1 1 0 0).1 rfl).1

/-- The pop loop only removes entries from the top of the stack (and possibly
clips the surviving top's right boundary), so the centers of the resulting
stack are a suffix of the original centers. -/
theorem popLoop_centersOf (sigma2 sigma22 v c : ℚ) :
    ∀ st : List distance_parabola_stack_entry,
      centersOf ((popLoop sigma2 sigma22 v c st).2) <:+ centersOf st := by
  intro st
  induction st with
  | nil => exact List.nil_suffix
  | cons s rest ih =>
    simp only [popLoop]
    by_cases h1 : c + (v - s.apex_height - sigma2 * sq (c - s.center)) /
        (sigma22 * (c - s.center)) < s.left
    · rw [if_pos h1]
      cases rest with
      | nil => exact List.nil_suffix
      | cons b t =>
        simp only [List.isEmpty_cons, Bool.false_eq_true, if_false]
        exact ih.trans (List.suffix_cons _ _)
    · rw [if_neg h1]
      by_cases h2 : c + (v - s.apex_height - sigma2 * sq (c - s.center)) /
          (sigma22 * (c - s.center)) < s.right
      · rw [if_pos h2]
        exact List.suffix_refl _
      · rw [if_neg h2]

/-- One forward-pass iteration preserves the light center invariant. -/
theorem LInv_step (sigma2 sigma22 w : ℚ) (f : ℕ → ℚ) (k : ℕ)
    (st : List distance_parabola_stack_entry) (h : LInv k st) :
    LInv (k + 1) (forwardStep sigma2 sigma22 w f k st) := by
  obtain ⟨hch, hmem⟩ := h
  have hsuf := popLoop_centersOf sigma2 sigma22 (f k) (k : ℚ) st
  have hceq : centersOf (forwardStep sigma2 sigma22 w f k st)
      = (k : ℚ) :: centersOf (popLoop sigma2 sigma22 (f k) (k : ℚ) st).2 := rfl
  constructor
  · rw [hceq]
    refine List.chain'_cons'.mpr ⟨?_, hch.suffix hsuf⟩
    intro y hy
    have hym : y ∈ centersOf (popLoop sigma2 sigma22 (f k) (k : ℚ) st).2 :=
      List.mem_of_mem_head? hy
    obtain ⟨jn, rfl, hjn⟩ := hmem y (hsuf.subset hym)
    exact_mod_cast hjn
  · intro x hx
    rw [hceq] at hx
    rcases List.mem_cons.mp hx with rfl | hx'
    · exact ⟨k, rfl, Nat.lt_succ_self k⟩
    · obtain ⟨jn, rfl, hjn⟩ := hmem x (hsuf.subset hx')
      exact ⟨jn, rfl, Nat.lt_succ_of_lt hjn⟩

/-- Every state in the forward-pass trace satisfies the light invariant for
its own position. -/
theorem LInv_trace (sigma2 sigma22 w : ℚ) (f : ℕ → ℚ) :
    ∀ (t k : ℕ) (st : List distance_parabola_stack_entry), LInv k st →
      ∀ p ∈ forwardTrace sigma2 sigma22 w f (List.range' k t) st, LInv p.1 p.2 := by
  intro t
  induction t with
  | zero => intro k st _ p hp; exact absurd hp (List.not_mem_nil p)
  | succ t iht =>
    intro k st h p hp
    rw [List.range'_succ k t 1] at hp
    simp only [forwardTrace] at hp
    rcases List.mem_cons.mp hp with rfl | hp'
    · exact h
    · exact iht (k + 1) _ (LInv_step sigma2 sigma22 w f k st h) p hp'

/-- Claim C6: in every iteration of `distance_parabola`'s forward pass, the
centers of the live stack entries are strictly increasing integers strictly
below the current position, so `diff = current − top.center` never equals
zero — and consequently, for nonzero `sigma`, the divisor
`2·sigma2·diff` of the intersection formula is nonzero at every entry the
pop loop can examine. -/
theorem forward_divisor_nonzero (lin : List ℚ) (sigma : ℚ) (invert : Bool)
    (k : ℕ) (st : List distance_parabola_stack_entry)
    (hmem : (k, st) ∈ forwardTrace (parabolaSigma2 sigma invert)
        (2 * parabolaSigma2 sigma invert) (lin.length : ℚ) (lineFun lin)
        (List.range' 1 (lin.length - 1)) (initStack (lin.length : ℚ) (lineFun lin))) :
    List.Chain' (fun u l => l.center < u.center) st ∧
    ∀ e ∈ st, ∃ jn : ℕ, e.center = (jn : ℚ) ∧ jn < k ∧
      ((k : ℚ) - e.center ≠ 0) ∧
      (sigma ≠ 0 → (2 * parabolaSigma2 sigma invert) * ((k : ℚ) - e.center) ≠ 0) := by
  have hinit : LInv 1 (initStack (lin.length : ℚ) (lineFun lin)) := by
    constructor
    · exact List.chain'_singleton _
    · intro x hx
      have hx' : x = (0 : ℚ) := by
        simpa [centersOf, initStack] using hx
      exact ⟨0, by rw [hx']; norm_num, Nat.zero_lt_one⟩
  have h := LInv_trace (parabolaSigma2 sigma invert) (2 * parabolaSigma2 sigma invert)
    (lin.length : ℚ) (lineFun lin) (lin.length - 1) 1 _ hinit (k, st) hmem
  obtain ⟨hch, hmemc⟩ := h
  have hch' : List.Chain' (fun a b => b < a)
      (st.map (fun e : distance_parabola_stack_entry => e.center)) := hch
  constructor
  · exact (List.chain'_map (fun e : distance_parabola_stack_entry => e.center)).mp hch'
  · intro e he
    have hmemc' : ∀ x ∈ st.map (fun e : distance_parabola_stack_entry => e.center),
        ∃ jn : ℕ, x = (jn : ℚ) ∧ jn < k := hmemc
    obtain ⟨jn, hjc, hjn⟩ := hmemc' e.center
      (List.mem_map_of_mem (fun e : distance_parabola_stack_entry => e.center) he)
    have hdiff : (k : ℚ) - e.center ≠ 0 := by
      rw [hjc]
      have : (jn : ℚ) < (k : ℚ) := by exact_mod_cast hjn
      intro hc
      have : (k : ℚ) = (jn : ℚ) := by linarith [sub_eq_zero.mp hc]
      linarith
    refine ⟨jn, hjc, hjn, hdiff, ?_⟩
    intro hsig
    have hs2 : parabolaSigma2 sigma invert ≠ 0 := by
      cases invert with
      | true =>
        have hps : parabolaSigma2 sigma true = -(sq sigma) := rfl
        rw [hps]
        exact neg_ne_zero.mpr (mul_ne_zero hsig hsig)
      | false =>
        have hps : parabolaSigma2 sigma false = sq sigma := rfl
        rw [hps]
        exact mul_ne_zero hsig hsig
    exact mul_ne_zero (mul_ne_zero two_ne_zero hs2) hdiff

/-- Witness for claim C6: the second iteration of the forward pass on the
line `[0, 26, 26]` with `sigma = 1`. -/
theorem forward_divisor_nonzero_witness :
    List.Chain' (fun u l => l.center < u.center)
      [(⟨(27 : ℚ)/2, 1, 3, 26⟩ : distance_parabola_stack_entry), ⟨0, 0, 3, 0⟩] ∧
    ∀ e ∈ [(⟨(27 : ℚ)/2, 1, 3, 26⟩ : distance_parabola_stack_entry), ⟨0, 0, 3, 0⟩],
      ∃ jn : ℕ, e.center = (jn : ℚ) ∧ jn < 2 ∧
        (((2 : ℕ) : ℚ) - e.center ≠ 0) ∧
        ((1 : ℚ) ≠ 0 → (2 * parabolaSigma2 1 false) * (((2 : ℕ) : ℚ) - e.center) ≠ 0) :=
  forward_divisor_nonzero [0, 26, 26] 1 false 2
    [⟨(27 : ℚ)/2, 1, 3, 26⟩, ⟨0, 0, 3, 0⟩] (by decide)

/-- A `StackRel` chain with all rights bounded by `w` has pairwise disjoint
dominance intervals. -/
theorem chain_pairwise_disjoint {sigma2 w : ℚ} :
    ∀ st : List distance_parabola_stack_entry,
      List.Chain' (StackRel sigma2 w) st →
      (∀ e ∈ st, e.right ≤ w) →
      List.Pairwise
        (fun a b => Set.Ico a.left a.right ∩ Set.Ico b.left b.right = ∅) st := by
  intro st
  induction st with
  | nil => intro _ _; exact List.Pairwise.nil
  | cons a l ih =>
    intro hchain hbw
    refine List.pairwise_cons.mpr
      ⟨?_, ih (List.chain'_cons'.mp hchain).2 (fun e he => hbw e (List.mem_cons_of_mem a he))⟩
    intro b hb
    rcases chain_below_le_left hchain b hb with h | h
    · apply Set.eq_empty_iff_forall_not_mem.mpr
      rintro x ⟨⟨hx1, _⟩, ⟨_, hx4⟩⟩
      linarith
    · have haw := hbw a (List.mem_cons_self a l)
      apply Set.eq_empty_iff_forall_not_mem.mpr
      rintro x ⟨⟨hx1, hx2⟩, _⟩
      linarith

/-- Coverage: a bottom-first `StackRel` chain whose bottom starts at its head
and whose last entry reaches `w` covers every `x` from the head's left up to
`w`. -/
theorem chain_cover {sigma2 w : ℚ} :
    ∀ L : List distance_parabola_stack_entry, L ≠ [] →
      List.Chain' (fun l u => StackRel sigma2 w u l) L →
      (L.getLastD dummyEntry).right = w →
      ∀ x, (L.headD dummyEntry).left ≤ x → x < w →
        ∃ e ∈ L, e.left ≤ x ∧ x < e.right := by
  intro L
  induction L with
  | nil => intro h; exact absurd rfl h
  | cons e Lt ih =>
    intro _ hchain hlastw x hx1 hx2
    by_cases hr : x < e.right
    · exact ⟨e, List.mem_cons_self e Lt, hx1, hr⟩
    · push_neg at hr
      cases Lt with
      | nil =>
        exfalso
        have hew : e.right = w := hlastw
        rw [hew] at hr
        linarith
      | cons b t =>
        have hcbt := List.chain'_cons.mp hchain
        have hlastw' : ((b :: t).getLastD dummyEntry).right = w := by
          rw [show ((e :: b :: t).getLastD dummyEntry) = ((b :: t).getLastD e) from
            List.getLastD_cons e e (b :: t), getLastD_indep t b e dummyEntry] at hlastw
          exact hlastw
        have hx1' : ((b :: t).headD dummyEntry).left ≤ x := by
          simp only [List.headD_cons]
          rcases hcbt.1.2.2.2 with hbe | hbe
          · rw [← hbe]; exact hr
          · exfalso; rw [hbe.1] at hr; linarith
        obtain ⟨e', he', h1, h2⟩ := ih (List.cons_ne_nil b t) hcbt.2 hlastw' x hx1' hx2
        exact ⟨e', List.mem_cons_of_mem e he', h1, h2⟩

/-- The full forward-pass invariant implies the structural interval
properties: pairwise disjointness, strictly increasing centers, and union
exactly `[0, w)`. -/
theorem stackInv_props {sigma2 w : ℚ} {f : ℕ → ℚ} {m : ℕ}
    (st : List distance_parabola_stack_entry) (h : StackInv sigma2 w f m st) :
    StackProps w st := by
  obtain ⟨hne, hhr, hhc, hlast, hchain, hbundle⟩ := h
  refine ⟨?_, ?_, ?_⟩
  · exact chain_pairwise_disjoint st hchain (fun e he => (hbundle e he).2.2.2)
  · exact hchain.imp (fun _ _ hab => hab.1)
  · ext x
    simp only [Set.mem_iUnion, Set.mem_Ico, exists_prop]
    constructor
    · rintro ⟨e, he, hx1, hx2⟩
      have hb := hbundle e he
      exact ⟨le_trans hb.2.2.1 hx1, lt_of_lt_of_le hx2 hb.2.2.2⟩
    · rintro ⟨hx0, hxw⟩
      have hLne : st.reverse ≠ [] := by simpa using hne
      have hLchain : List.Chain' (fun l u => StackRel sigma2 w u l) st.reverse :=
        List.chain'_reverse.mpr hchain
      have hLlast : ((st.reverse).getLastD dummyEntry).right = w := by
        rw [reverse_getLastD]; exact hhr
      have hLhead : ((st.reverse).headD dummyEntry).left = 0 := by
        rw [reverse_headD]; exact hlast
      obtain ⟨e, he, h1, h2⟩ := chain_cover st.reverse hLne hLchain hLlast x
        (by rw [hLhead]; exact hx0) hxw
      exact ⟨e, List.mem_reverse.mp he, h1, h2⟩

/-- Negating `sigma2`, `sigma22`, the new value and every apex yields the
same pop-loop control flow: the computed intersection abscissa is unchanged
and the stack evolves to the apex-negated stack.  This is the correspondence
between an `invert = true` run and an `invert = false` run on negated input. -/
theorem popLoop_negApex (sigma2 sigma22 v c : ℚ) :
    ∀ st : List distance_parabola_stack_entry,
      popLoop (-sigma2) (-sigma22) (-v) c (st.map negApex)
        = ((popLoop sigma2 sigma22 v c st).1,
           ((popLoop sigma2 sigma22 v c st).2).map negApex) := by
  intro st
  induction st with
  | nil => rfl
  | cons s rest ih =>
    have hinter : c + (-v - (negApex s).apex_height -
          (-sigma2) * sq (c - (negApex s).center)) /
        ((-sigma22) * (c - (negApex s).center))
        = c + (v - s.apex_height - sigma2 * sq (c - s.center)) /
            (sigma22 * (c - s.center)) := by
      have h1 : -v - (negApex s).apex_height - (-sigma2) * sq (c - (negApex s).center)
          = -(v - s.apex_height - sigma2 * sq (c - s.center)) := by
        simp only [negApex, sq]
        ring
      have h2 : (-sigma22) * (c - (negApex s).center) = -(sigma22 * (c - s.center)) := by
        simp only [negApex]
        ring
      rw [h1, h2, neg_div_neg_eq]
    simp only [List.map_cons, popLoop]
    rw [hinter]
    have hleft : (negApex s).left = s.left := rfl
    have hright : (negApex s).right = s.right := rfl
    rw [hleft, hright]
    by_cases h1 : c + (v - s.apex_height - sigma2 * sq (c - s.center)) /
        (sigma22 * (c - s.center)) < s.left
    · rw [if_pos h1, if_pos h1]
      cases rest with
      | nil => rfl
      | cons b t =>
        simp only [List.map_cons, List.isEmpty_cons, Bool.false_eq_true, if_false]
        simpa using ih
    · rw [if_neg h1, if_neg h1]
      by_cases h2 : c + (v - s.apex_height - sigma2 * sq (c - s.center)) /
          (sigma22 * (c - s.center)) < s.right
      · rw [if_pos h2, if_pos h2]
        rfl
      · rw [if_neg h2, if_neg h2]
        rfl

/-- One forward-pass iteration commutes with the apex negation. -/
theorem forwardStep_negApex (sigma2 sigma22 w : ℚ) (f : ℕ → ℚ) (k : ℕ)
    (st : List distance_parabola_stack_entry) :
    forwardStep (-sigma2) (-sigma22) w (fun j => -(f j)) k (st.map negApex)
      = (forwardStep sigma2 sigma22 w f k st).map negApex := by
  unfold forwardStep
  rw [popLoop_negApex sigma2 sigma22 (f k) (k : ℚ) st]
  rfl

/-- The whole forward pass commutes with the apex negation. -/
theorem forwardLoop_negApex (sigma2 sigma22 w : ℚ) (f : ℕ → ℚ) :
    ∀ (ks : List ℕ) (st : List distance_parabola_stack_entry),
      forwardLoop (-sigma2) (-sigma22) w (fun j => -(f j)) ks (st.map negApex)
        = (forwardLoop sigma2 sigma22 w f ks st).map negApex := by
  intro ks
  induction ks with
  | nil => intro st; rfl
  | cons k ks ih =>
    intro st
    have h1 : forwardLoop (-sigma2) (-sigma22) w (fun j => -(f j)) (k :: ks) (st.map negApex)
        = forwardLoop (-sigma2) (-sigma22) w (fun j => -(f j)) ks
            (forwardStep (-sigma2) (-sigma22) w (fun j => -(f j)) k (st.map negApex)) := rfl
    rw [h1, forwardStep_negApex, ih]
    rfl

/-- The forward-pass trace commutes with the apex negation. -/
theorem forwardTrace_negApex (sigma2 sigma22 w : ℚ) (f : ℕ → ℚ) :
    ∀ (ks : List ℕ) (st : List distance_parabola_stack_entry),
      forwardTrace (-sigma2) (-sigma22) w (fun j => -(f j)) ks (st.map negApex)
        = (forwardTrace sigma2 sigma22 w f ks st).map
            (fun p => (p.1, p.2.map negApex)) := by
  intro ks
  induction ks with
  | nil => intro st; rfl
  | cons k ks ih =>
    intro st
    simp only [forwardTrace, List.map_cons]
    rw [forwardStep_negApex sigma2 sigma22 w f k st,
      ih (forwardStep sigma2 sigma22 w f k st)]

/-- The structural interval properties are invariant under apex negation. -/
theorem stackProps_negApex (w : ℚ) (st : List distance_parabola_stack_entry)
    (h : StackProps w st) : StackProps w (st.map negApex) := by
  obtain ⟨hp, hc, hu⟩ := h
  refine ⟨?_, ?_, ?_⟩
  · rw [List.pairwise_map]
    simpa [negApex] using hp
  · rw [List.chain'_map]
    simpa [negApex] using hc
  · have hun : (⋃ e ∈ st.map negApex, Set.Ico e.left e.right)
        = ⋃ e ∈ st, Set.Ico e.left e.right := by
      ext x
      simp [List.mem_map, negApex]
    rw [hun]
    exact hu

/-- Claim C7 (amended): for every input line of length at least 1 and every
nonzero `sigma` (for `sigma = 0` the code divides by zero) and both values of
the invert flag, at every iteration boundary of the forward sweep and after
it completes, the live stack's intervals `[left, right)` are pairwise
disjoint, the centers are strictly increasing, and the union of the intervals
is exactly `[0, w)` (hence it covers `[0, current]`).  Adjacent-pair
contiguity `lower.right = upper.left` does not hold in general: an entry
pushed with `left ≥ w` is an empty interval detached from its predecessor
(see the counterexample), which is what the counterexample forces the claim
to give up. -/
theorem stack_interval_invariant (lin : List ℚ) (sigma : ℚ) (invert : Bool)
    (hsig : sigma ≠ 0) (hlen : lin ≠ []) :
    (∀ (k : ℕ) (st : List distance_parabola_stack_entry),
      (k, st) ∈ forwardTrace (parabolaSigma2 sigma invert)
        (2 * parabolaSigma2 sigma invert) (lin.length : ℚ) (lineFun lin)
        (List.range' 1 (lin.length - 1)) (initStack (lin.length : ℚ) (lineFun lin)) →
      StackProps (lin.length : ℚ) st) ∧
    StackProps (lin.length : ℚ) (finalStack lin sigma invert) := by
  have hs2 : (0 : ℚ) < sq sigma := mul_self_pos.mpr hsig
  cases invert with
  | false =>
    have hps : parabolaSigma2 sigma false = sq sigma := rfl
    constructor
    · intro k st hmem
      rw [hps] at hmem
      have h := forwardTrace_inv hs2 (lin.length - 1) 0 _ initStack_inv (k, st) hmem
      exact stackInv_props st h
    · have hfin := forwardLoop_inv hs2 (lin.length - 1) 0
        (initStack (lin.length : ℚ) (lineFun lin)) initStack_inv
      exact stackInv_props _ hfin
  | true =>
    have hps : parabolaSigma2 sigma true = -(sq sigma) := rfl
    have hps2 : 2 * parabolaSigma2 sigma true = -(2 * sq sigma) := by rw [hps]; ring
    have hg : (fun j => -((fun j' => -(lineFun lin j')) j)) = lineFun lin := by
      funext j
      simp
    have hinitmap : initStack (lin.length : ℚ) (lineFun lin)
        = (initStack (lin.length : ℚ) (fun j' => -(lineFun lin j'))).map negApex := by
      simp [initStack, negApex]
    constructor
    · intro k st hmem
      rw [hps2, hps, hinitmap] at hmem
      have hcorr := forwardTrace_negApex (sq sigma) (2 * sq sigma) (lin.length : ℚ)
        (fun j' => -(lineFun lin j')) (List.range' 1 (lin.length - 1))
        (initStack (lin.length : ℚ) (fun j' => -(lineFun lin j')))
      rw [hg] at hcorr
      rw [hcorr] at hmem
      obtain ⟨p, hp, hpe⟩ := List.mem_map.mp hmem
      have hinv := forwardTrace_inv hs2 (lin.length - 1) 0 _ initStack_inv p hp
      have hprops := stackProps_negApex _ _ (stackInv_props _ hinv)
      have hst : st = p.2.map negApex := (congrArg Prod.snd hpe).symm
      rw [hst]
      exact hprops
    · have hcorr := forwardLoop_negApex (sq sigma) (2 * sq sigma) (lin.length : ℚ)
        (fun j' => -(lineFun lin j')) (List.range' 1 (lin.length - 1))
        (initStack (lin.length : ℚ) (fun j' => -(lineFun lin j')))
      rw [hg] at hcorr
      have hfinal : finalStack lin sigma true
          = (forwardLoop (sq sigma) (2 * sq sigma) (lin.length : ℚ)
              (fun j' => -(lineFun lin j')) (List.range' 1 (lin.length - 1))
              (initStack (lin.length : ℚ) (fun j' => -(lineFun lin j')))).map negApex := by
        unfold finalStack
        rw [hps2, hps, hinitmap, hcorr]
      rw [hfinal]
      exact stackProps_negApex _ _
        (stackInv_props _ (forwardLoop_inv hs2 (lin.length - 1) 0 _ initStack_inv))

/-- Counterexample to claim C7 as stated: on the line `[0, 100]` with
`sigma = 1`, `invert = false`, the surviving stack after the forward sweep is
`[⟨left 101/2, center 1, right 2⟩, ⟨left 0, center 0, right 2⟩]`: the lower
entry's right boundary (2) differs from the upper entry's left boundary
(101/2), so the stack intervals are not contiguous in the adjacency sense the
claim asserts (the second interval is empty and detached). -/
theorem stack_contiguity_counterexample :
    (finalStack [0, 100] 1 false).map (fun e => (e.left, e.right))
      = [((101 : ℚ)/2, 2), (0, 2)] ∧
    ¬ List.Chain' (fun u l => l.right = u.left) (finalStack [0, 100] 1 false) := by
  have hfs : finalStack [0, 100] 1 false
      = [⟨(101 : ℚ)/2, 1, 2, 100⟩, ⟨0, 0, 2, 0⟩] := by decide
  constructor
  · rw [hfs]
    decide
  · intro hch
    rw [hfs] at hch
    have h := (List.chain'_cons.mp hch).1
    have h2 : (2 : ℚ) = (101 : ℚ)/2 := h
    norm_num at h2

/-- Witness for claim C7 (amended): the structural interval properties hold
for the surviving stack of the very line used in the counterexample. -/
theorem stack_interval_invariant_witness :
    StackProps ((([0, 100] : List ℚ).length : ℚ)) (finalStack [0, 100] 1 false) :=
  (stack_interval_invariant [0, 100] 1 false (by norm_num) (by decide)).2

end xvigra
